import Mathlib

/-!
Verification of `src/amaranth_analogue/packaging.py`: schema validation of
`analogue.toml`, derivation of the package manifests, the per-byte bit
reversal applied to core images, and assembly of the package file sequence.
-/

set_option maxHeartbeats 1000000
set_option maxRecDepth 8000

namespace AmaranthAnalogue

/-! ### Bitstream byte reversal (`Package.files`, packaging.py line 390) -/

/-- One byte of `int(b.__format__("08b")[::-1], 2)`: the eight binary digits
of `b` (most significant first), reversed, reparsed in base 2.  For `b < 256`
the format string has exactly eight digits, which is the case for every
element of a Python `bytes` value. -/
def rev8 (b : Nat) : Nat :=
  (List.range 8).foldl (fun acc i => 2 * acc + b / 2 ^ i % 2) 0

/-- `bytes(int(b.__format__("08b")[::-1], 2) for b in core_bytes)`
(packaging.py line 390). -/
def encodeBytes (x : List Nat) : List Nat := x.map rev8

/-! ### Characters and digits -/

def isDigitCh (c : Char) : Bool := decide ('0' ≤ c) && decide (c ≤ '9')

def digitCh : Nat → Char
  | 0 => '0'
  | 1 => '1'
  | 2 => '2'
  | 3 => '3'
  | 4 => '4'
  | 5 => '5'
  | 6 => '6'
  | 7 => '7'
  | 8 => '8'
  | _ => '9'

/-- Decimal digits of `n`, most significant first, as Python `str(n)` or
`json.dumps(n)` renders a non-negative integer. -/
def natChars (n : Nat) : List Char :=
  if n < 10 then [digitCh n]
  else natChars (n / 10) ++ [digitCh (n % 10)]
decreasing_by exact Nat.div_lt_self (by omega) (by omega)

def natStr (n : Nat) : String := ⟨natChars n⟩

/-- Decimal rendering of an integer, with a leading minus sign when
negative. -/
def intChars (n : Int) : List Char :=
  if n < 0 then '-' :: natChars n.natAbs else natChars n.natAbs

def asciiChar (c : Char) : Bool := decide (c.toNat < 128)

def allAscii (l : List Char) : Bool := l.all asciiChar

inductive EmitError where
  | asciiEncodeError
deriving DecidableEq

/-- Python `str.encode("ascii")`: succeeds, yielding the code points, iff
every code point is below 128. -/
def asciiEncode (cs : List Char) : Except EmitError (List Nat) :=
  if allAscii cs then .ok (cs.map Char.toNat) else .error .asciiEncodeError

/-! ### TOML documents

`tomli.load` produces nested dictionaries; the subset of TOML value shapes
the schema mentions (strings, integers, booleans, tables, arrays) is modelled
here.  Table keys produced by `tomli` are unique. -/

inductive TomlVal where
  | str (s : String)
  | int (n : Int)
  | bool (b : Bool)
  | table (kvs : List (String × TomlVal))
  | arr (elems : List TomlVal)

def hasKey (kvs : List (String × TomlVal)) (k : String) : Bool :=
  kvs.any (fun kv => kv.1 == k)

def keysAmong (kvs : List (String × TomlVal)) (allowed : List String) : Bool :=
  kvs.all (fun kv => allowed.contains kv.1)

/-- Dictionary access on a parsed table. -/
def tomlLookup (kvs : List (String × TomlVal)) (k : String) : Option TomlVal :=
  (kvs.find? (fun kv => kv.1 == k)).map Prod.snd

def TomlVal.get (v : TomlVal) (k : String) : Option TomlVal :=
  match v with
  | .table kvs => tomlLookup kvs k
  | _ => none

/-- A `properties` entry: the sub-schema constrains the value only when the
key is present. -/
def propCheck (kvs : List (String × TomlVal)) (k : String)
    (chk : TomlVal → Bool) : Bool :=
  match tomlLookup kvs k with
  | some v => chk v
  | none => true

def isStrMax (maxLen : Nat) (v : TomlVal) : Bool :=
  match v with
  | .str s => s.length ≤ maxLen
  | _ => false

def isIntVal (v : TomlVal) : Bool :=
  match v with
  | .int _ => true
  | _ => false

def isBoolVal (v : TomlVal) : Bool :=
  match v with
  | .bool _ => true
  | _ => false

/-! #### The `id` pattern and the `version` pattern

`jsonschema` applies `re.search` to string patterns. -/

def isIdBody (c : Char) : Bool :=
  (decide ('a' ≤ c) && decide (c ≤ 'z')) || isDigitCh c

/-- `re.search("^[a-z0-9][a-z0-9_]*$", s)`: anchored at both ends; Python `$`
also matches just before one trailing newline. -/
def idPatternOk (s : String) : Bool :=
  match (if s.data.getLast? = some '\n' then s.data.dropLast else s.data) with
  | [] => false
  | c :: cs => isIdBody c && cs.all (fun d => isIdBody d || d == '_')

/-- Remainders of `l` after consuming one or more leading decimal digits
(the ways `\d+` can match at the start of `l`).  Python `\d` also matches
non-ASCII Unicode decimal digits; the model restricts attention to the ASCII
digits the schema comment intends. -/
def afterDigits1 : List Char → List (List Char)
  | [] => []
  | c :: cs => if isDigitCh c then cs :: afterDigits1 cs else []

/-- `re.search("^(\d+).(\d+).(\d+)", s)` succeeds.  Note the two dots in the
pattern are unescaped: each matches any single character other than a
newline, not only a literal dot (packaging.py line 86). -/
def matchDDD (l : List Char) : Bool :=
  (afterDigits1 l).any fun r1 =>
    match r1 with
    | [] => false
    | c1 :: r1x =>
      !(c1 == '\n') && (afterDigits1 r1x).any fun r2 =>
        match r2 with
        | [] => false
        | c2 :: r2x => !(c2 == '\n') && !(afterDigits1 r2x).isEmpty

def versionPatternOk (s : String) : Bool := matchDDD s.data

/-- The full constraint the schema places on `metadata.core.version`:
a string, matching the (unanchored-at-the-end) pattern, of length at
most 31. -/
def versionFieldOk (v : TomlVal) : Bool :=
  match v with
  | .str s => versionPatternOk s && decide (s.length ≤ 31)
  | _ => false

/-! #### The validator for `ANALOGUE_TOML_SCHEMA`

Each object level of the schema becomes one checker.  `format` annotations
(`uri`, `date`) are not enforced: `jsonschema.validate` ignores `format`
unless a format checker is supplied, and none is.  A level whose sub-schema
has `additionalProperties: False` checks `keysAmong`; the `video.mode` item
sub-schema has no `additionalProperties` (and no `type`), so unknown keys
are permitted there and non-table items pass vacuously. -/

def topLevelKeys : List String :=
  ["metadata", "core", "audio", "video", "input", "interact", "data"]

def metadataKeys : List String := ["platform", "core"]

def platformKeys : List String := ["id", "category", "name", "manufacturer", "year"]

def metadataCoreKeys : List String :=
  ["author", "name", "description", "description_long", "url", "version", "release_date"]

def coreTableKeys : List String := ["sleep_supported"]

def videoKeys : List String := ["mode"]

/-- The keys declared under `properties` of the `video.mode` item
sub-schema. -/
def modeKeys : List String :=
  ["width", "height", "pixel_width", "pixel_height", "rotation",
   "mirror_horizontal", "mirror_vertical", "configuration"]

def validPlatformItem (v : TomlVal) : Bool :=
  match v with
  | .table kvs =>
    hasKey kvs "id" && hasKey kvs "name" && hasKey kvs "manufacturer" &&
    hasKey kvs "year" &&
    keysAmong kvs platformKeys &&
    propCheck kvs "id" (fun w =>
      match w with
      | .str s => idPatternOk s && decide (s.length ≤ 15)
      | _ => false) &&
    propCheck kvs "category" (isStrMax 31) &&
    propCheck kvs "name" (isStrMax 31) &&
    propCheck kvs "manufacturer" (isStrMax 31) &&
    propCheck kvs "year" isIntVal
  | _ => false

def validMetadataCore (v : TomlVal) : Bool :=
  match v with
  | .table kvs =>
    hasKey kvs "author" && hasKey kvs "name" && hasKey kvs "version" &&
    keysAmong kvs metadataCoreKeys &&
    propCheck kvs "author" (isStrMax 31) &&
    propCheck kvs "name" (isStrMax 31) &&
    propCheck kvs "description" (isStrMax 63) &&
    propCheck kvs "description_long" (fun w =>
      match w with
      | .str _ => true
      | _ => false) &&
    propCheck kvs "url" (isStrMax 63) &&
    propCheck kvs "version" versionFieldOk &&
    propCheck kvs "release_date" (fun w =>
      match w with
      | .str s => decide (s.length = 10)
      | _ => false)
  | _ => false

def validMetadataTable (v : TomlVal) : Bool :=
  match v with
  | .table kvs =>
    hasKey kvs "platform" && hasKey kvs "core" &&
    keysAmong kvs metadataKeys &&
    propCheck kvs "platform" (fun w =>
      match w with
      | .arr xs => decide (xs.length ≤ 4) && xs.all validPlatformItem
      | _ => false) &&
    propCheck kvs "core" validMetadataCore
  | _ => false

def validCoreTable (v : TomlVal) : Bool :=
  match v with
  | .table kvs =>
    keysAmong kvs coreTableKeys &&
    propCheck kvs "sleep_supported" isBoolVal
  | _ => false

/-- `audio`, `input`, `interact`, `data`: an object with
`additionalProperties: False` and no declared properties accepts only the
empty table. -/
def validEmptyTable (v : TomlVal) : Bool :=
  match v with
  | .table kvs => kvs.isEmpty
  | _ => false

/-- One element of `video.mode`.  The sub-schema declares no `type` and no
`additionalProperties`, so non-objects pass vacuously and unknown keys are
allowed. -/
def validModeItem (v : TomlVal) : Bool :=
  match v with
  | .table kvs =>
    hasKey kvs "width" && hasKey kvs "height" &&
    propCheck kvs "width" (fun w =>
      match w with
      | .int n => decide (16 ≤ n) && decide (n ≤ 800)
      | _ => false) &&
    propCheck kvs "height" (fun w =>
      match w with
      | .int n => decide (16 ≤ n) && decide (n ≤ 720)
      | _ => false) &&
    propCheck kvs "pixel_width" (fun w =>
      match w with
      | .int n => decide (1 ≤ n)
      | _ => false) &&
    propCheck kvs "pixel_height" (fun w =>
      match w with
      | .int n => decide (1 ≤ n)
      | _ => false) &&
    propCheck kvs "rotation" (fun w =>
      match w with
      | .int n => n == 0 || n == 90 || n == 180 || n == 270
      | _ => false) &&
    propCheck kvs "mirror_horizontal" isBoolVal &&
    propCheck kvs "mirror_vertical" isBoolVal &&
    propCheck kvs "configuration" (fun w =>
      match w with
      | .table _ => true
      | _ => false) &&
    (!hasKey kvs "pixel_width" || hasKey kvs "pixel_height") &&
    (!hasKey kvs "pixel_height" || hasKey kvs "pixel_width")
  | _ => true

def validVideoTable (v : TomlVal) : Bool :=
  match v with
  | .table kvs =>
    hasKey kvs "mode" &&
    keysAmong kvs videoKeys &&
    propCheck kvs "mode" (fun w =>
      match w with
      | .arr xs => xs.all validModeItem
      | _ => false)
  | _ => false

/-- `jsonschema.validate(self._data, ANALOGUE_TOML_SCHEMA)` succeeds
(packaging.py line 188); `False` corresponds to the raised
`ValidationError`. -/
def validateDoc (v : TomlVal) : Bool :=
  match v with
  | .table kvs =>
    hasKey kvs "metadata" && hasKey kvs "video" &&
    keysAmong kvs topLevelKeys &&
    propCheck kvs "metadata" validMetadataTable &&
    propCheck kvs "core" validCoreTable &&
    propCheck kvs "audio" validEmptyTable &&
    propCheck kvs "video" validVideoTable &&
    propCheck kvs "input" validEmptyTable &&
    propCheck kvs "interact" validEmptyTable &&
    propCheck kvs "data" validEmptyTable
  | _ => false

/-! ### JSON documents and `json.dumps(data, indent=4)`

The manifests are Python dictionaries serialized by
`json.dumps(data, indent=4).encode("ascii")` (packaging.py lines 372-373).
`json.dumps` keeps insertion order and, with the default
`ensure_ascii=True`, escapes every character outside `0x20`-`0x7e`. -/

inductive Json where
  | str (s : String)
  | int (n : Int)
  | bool (b : Bool)
  | arr (elems : List Json)
  | obj (fields : List (String × Json))

def hexCh (n : Nat) : Char :=
  if n < 10 then digitCh n
  else
    match n with
    | 10 => 'a'
    | 11 => 'b'
    | 12 => 'c'
    | 13 => 'd'
    | 14 => 'e'
    | _ => 'f'

def uEsc (n : Nat) : List Char :=
  ['\\', 'u', hexCh (n / 4096 % 16), hexCh (n / 256 % 16), hexCh (n / 16 % 16), hexCh (n % 16)]

/-- `json.dumps` escaping of one character under `ensure_ascii=True`:
characters in `0x20`-`0x7e` other than `"` and `\` are literal, the short
escapes cover the usual controls, everything else becomes `\uXXXX`, with a
UTF-16 surrogate pair above `0xffff`. -/
def escCh (c : Char) : List Char :=
  if c = '"' then ['\\', '"']
  else if c = '\\' then ['\\', '\\']
  else if c = '\x08' then ['\\', 'b']
  else if c = '\t' then ['\\', 't']
  else if c = '\n' then ['\\', 'n']
  else if c = '\x0c' then ['\\', 'f']
  else if c = '\r' then ['\\', 'r']
  else if 32 ≤ c.toNat && c.toNat ≤ 126 then [c]
  else if c.toNat < 65536 then uEsc c.toNat
  else uEsc (55296 + (c.toNat - 65536) / 1024) ++ uEsc (56320 + (c.toNat - 65536) % 1024)

def quoteChars (s : List Char) : List Char :=
  '"' :: (s.map escCh).flatten ++ ['"']

def spaces (n : Nat) : List Char := List.replicate n ' '

mutual

/-- `json.dumps(data, indent=4)` rendered to characters, at a given current
indentation. -/
def dumpChars (ind : Nat) : Json → List Char
  | .str s => quoteChars s.data
  | .int n => intChars n
  | .bool b => if b then ['t', 'r', 'u', 'e'] else ['f', 'a', 'l', 's', 'e']
  | .arr [] => ['[', ']']
  | .arr (x :: xs) =>
    '[' :: '\n' :: (dumpItems (ind + 4) x xs ++ '\n' :: (spaces ind ++ [']']))
  | .obj [] => ['\x7b', '\x7d']
  | .obj (f :: fs) =>
    '\x7b' :: '\n' :: (dumpFields (ind + 4) f fs ++ '\n' :: (spaces ind ++ ['\x7d']))
termination_by j => sizeOf j

def dumpItems (ind : Nat) (x : Json) (xs : List Json) : List Char :=
  match xs with
  | [] => spaces ind ++ dumpChars ind x
  | y :: ys => spaces ind ++ dumpChars ind x ++ ',' :: '\n' :: dumpItems ind y ys
termination_by 1 + sizeOf x + sizeOf xs

def dumpFields (ind : Nat) (f : String × Json) (fs : List (String × Json)) : List Char :=
  match fs with
  | [] => spaces ind ++ (quoteChars f.1.data ++ ':' :: ' ' :: dumpChars ind f.2)
  | g :: gs =>
    spaces ind ++ (quoteChars f.1.data ++ ':' :: ' ' :: dumpChars ind f.2) ++
      ',' :: '\n' :: dumpFields ind g gs
termination_by 1 + sizeOf f + sizeOf fs
decreasing_by
  all_goals obtain ⟨k, v⟩ := f
  all_goals simp
  all_goals omega

end

/-- The bytes of a successfully serialized manifest. -/
def jsonBytes (j : Json) : List Nat := (dumpChars 0 j).map Char.toNat

/-- `json.dumps(data, indent=4).encode("ascii")` (packaging.py lines
372-373). -/
def dumpJsonBytes (j : Json) : Except EmitError (List Nat) :=
  asciiEncode (dumpChars 0 j)

/-- Field access on a serialized object, for stating properties of
manifests. -/
def jsonField (j : Json) (k : String) : Option Json :=
  match j with
  | .obj fs => (fs.find? (fun f => f.1 == k)).map Prod.snd
  | _ => none

/-! ### The validated metadata model

Views over the validated document, as the `Metadata` accessors read it.
`Option` encodes presence of an optional key; `.get(key, default)` becomes
`Option.getD`. -/

structure MetadataPlatform where
  id : String
  category : Option String
  name : String
  manufacturer : String
  year : Int
deriving DecidableEq

structure MetadataCore where
  author : String
  name : String
  description : Option String
  description_long : Option String
  url : Option String
  version : String
  release_date : Option String
deriving DecidableEq

structure VideoMode where
  width : Int
  height : Int
  pixel_width : Option Int
  pixel_height : Option Int
  rotation : Option Int
  mirror_horizontal : Option Bool
  mirror_vertical : Option Bool
deriving DecidableEq

structure CoreOptions where
  sleep_supported : Option Bool
deriving DecidableEq

structure Metadata where
  metadata_platform : List MetadataPlatform
  metadata_core : MetadataCore
  core : Option CoreOptions
  video_mode : List VideoMode
  core_names : List String
deriving DecidableEq

def Metadata.author (m : Metadata) : String := m.metadata_core.author

def Metadata.name (m : Metadata) : String := m.metadata_core.name

def Metadata.version (m : Metadata) : String := m.metadata_core.version

/-- `self._metadata_core.get("release_date", time.strftime("%Y-%m-%d"))`:
`now` stands for the wall-clock date at the moment of the call. -/
def Metadata.releaseDate (m : Metadata) (now : String) : String :=
  m.metadata_core.release_date.getD now

def Metadata.coreDirectory (m : Metadata) : String :=
  "Cores/" ++ m.author ++ "." ++ m.name

def Metadata.infoTxt (m : Metadata) : String :=
  m.metadata_core.description_long.getD ""

def Metadata.zipFilename (m : Metadata) (now : String) : String :=
  m.author ++ "." ++ m.name ++ "_" ++ m.version ++ "_" ++ m.releaseDate now ++ ".zip"

/-- Python `dict` assignment `d[k] = v` on an insertion-ordered dictionary:
an existing key keeps its position and takes the new value, a new key is
appended at the end. -/
def dictInsert {α : Type} (d : List (String × α)) (k : String) (v : α) :
    List (String × α) :=
  if d.any (fun kv => kv.1 == k) then
    d.map (fun kv => if kv.1 == k then (k, v) else kv)
  else d ++ [(k, v)]

/-- The value stored under one platform id (`Metadata.platform_jsons`,
packaging.py lines 225-234): `category` is included only if supplied. -/
def platformJson (p : MetadataPlatform) : Json :=
  .obj [("platform", .obj
    ([("name", .str p.name),
      ("manufacturer", .str p.manufacturer),
      ("year", .int p.year)] ++
     (match p.category with
      | some c => [("category", .str c)]
      | none => [])))]

/-- `Metadata.platform_jsons`: a dictionary built by successive assignment,
keyed by platform id. -/
def Metadata.platformJsons (m : Metadata) : List (String × Json) :=
  m.metadata_platform.foldl (fun d p => dictInsert d p.id (platformJson p)) []

/-- One element of the `cores` array of `core.json` (packaging.py lines
277-284). -/
def coreEntryJson (i : Nat) (coreName : String) : Json :=
  .obj [("id", .int (Int.ofNat i)),
        ("name", .str (coreName.take 15)),
        ("filename", .str ("core_" ++ natStr i ++ ".rbf_r"))]

/-- `Metadata.core_json` (packaging.py lines 241-286). -/
def Metadata.coreJson (m : Metadata) (now : String) : Json :=
  .obj [("core", .obj
    [("magic", .str "APF_VER_1"),
     ("metadata", .obj
       ([("platform_ids", .arr (m.metadata_platform.map (fun p => .str p.id))),
         ("author", .str m.metadata_core.author),
         ("shortname", .str m.metadata_core.name),
         ("version", .str m.metadata_core.version),
         ("date_release", .str (m.releaseDate now))] ++
        (match m.metadata_core.description with
         | some d => [("description", .str d)]
         | none => []) ++
        (match m.metadata_core.url with
         | some u => [("url", .str u)]
         | none => []))),
     ("framework", .obj
       [("target_product", .str "Analogue Pocket"),
        ("version_required", .str "1.1"),
        ("sleep_supported", .bool ((m.core.bind (fun c => c.sleep_supported)).getD false)),
        ("dock", .obj
          [("supported", .bool true),
           ("analog_output", .bool false)]),
        ("hardware", .obj
          [("link_port", .bool false),
           ("cartridge_adapter", .int (-1))])]),
     ("cores", .arr (m.core_names.enum.map (fun ic => coreEntryJson ic.1 ic.2)))])]

def Metadata.variantsJson (m : Metadata) : Json :=
  .obj [("variants", .obj
    [("magic", .str "APF_VER_1"),
     ("variant_list", .arr [])])]

def pyNat (b : Bool) : Nat := if b then 1 else 0

/-- `mirror_horizontal << 1 | mirror_vertical << 0` (packaging.py lines
315-316), both flags defaulting to `False`. -/
def VideoMode.mirrorField (mode : VideoMode) : Nat :=
  (pyNat (mode.mirror_horizontal.getD false)) <<< 1 |||
  (pyNat (mode.mirror_vertical.getD false)) <<< 0

/-- `Fraction(width, height) * Fraction(pixel_width, pixel_height)`
(packaging.py lines 305-308), pixel dimensions defaulting to 1.  `Fraction`
keeps an exact reduced rational; `Int.toNat` on the denominators is faithful
because the schema forces them positive. -/
def VideoMode.aspect (mode : VideoMode) : Rat :=
  mkRat mode.width mode.height.toNat *
  mkRat (mode.pixel_width.getD 1) ((mode.pixel_height.getD 1)).toNat

/-- One element of `scaler_modes` (packaging.py lines 309-317). -/
def videoModeJson (mode : VideoMode) : Json :=
  .obj [("width", .int mode.width),
        ("height", .int mode.height),
        ("aspect_w", .int mode.aspect.num),
        ("aspect_h", .int (Int.ofNat mode.aspect.den)),
        ("rotation", .int (mode.rotation.getD 0)),
        ("mirror", .int (Int.ofNat mode.mirrorField))]

def Metadata.videoJson (m : Metadata) : Json :=
  .obj [("video", .obj
    [("magic", .str "APF_VER_1"),
     ("scaler_modes", .arr (m.video_mode.map videoModeJson))])]

def Metadata.audioJson (m : Metadata) : Json :=
  .obj [("audio", .obj [("magic", .str "APF_VER_1")])]

def Metadata.inputJson (m : Metadata) : Json :=
  .obj [("input", .obj
    [("magic", .str "APF_VER_1"),
     ("controllers", .arr [])])]

def Metadata.interactJson (m : Metadata) : Json :=
  .obj [("interact", .obj
    [("magic", .str "APF_VER_1"),
     ("variables", .arr []),
     ("messages", .arr [])])]

def Metadata.dataJson (m : Metadata) : Json :=
  .obj [("data", .obj
    [("magic", .str "APF_VER_1"),
     ("data_slots", .arr [])])]

/-! ### Package assembly (`Package.files`, packaging.py lines 371-391) -/

structure Package where
  metadata : Metadata
  cores : List (String × List Nat)

/-- The `(path, payload)` pairs `Package.files` yields, in yield order, each
payload still carrying the possibility of an encoding failure at the moment
that entry is produced. -/
def Package.rawEntries (p : Package) (now : String) :
    List (String × Except EmitError (List Nat)) :=
  p.metadata.platformJsons.map
    (fun pj => ("Platforms/" ++ pj.1 ++ ".json", dumpJsonBytes pj.2)) ++
  [(p.metadata.coreDirectory ++ "/core.json", dumpJsonBytes (p.metadata.coreJson now))] ++
  (if p.metadata.infoTxt = "" then []
   else [(p.metadata.coreDirectory ++ "/info.txt", asciiEncode p.metadata.infoTxt.data)]) ++
  [(p.metadata.coreDirectory ++ "/video.json", dumpJsonBytes p.metadata.videoJson),
   (p.metadata.coreDirectory ++ "/audio.json", dumpJsonBytes p.metadata.audioJson),
   (p.metadata.coreDirectory ++ "/input.json", dumpJsonBytes p.metadata.inputJson),
   (p.metadata.coreDirectory ++ "/interact.json", dumpJsonBytes p.metadata.interactJson),
   (p.metadata.coreDirectory ++ "/data.json", dumpJsonBytes p.metadata.dataJson),
   (p.metadata.coreDirectory ++ "/variants.json", dumpJsonBytes p.metadata.variantsJson)] ++
  (p.cores.map Prod.snd).enum.map
    (fun ic => (p.metadata.coreDirectory ++ "/core_" ++ natStr ic.1 ++ ".rbf_r",
                .ok (encodeBytes ic.2)))

/-- Driving the generator to completion: the first failing entry aborts the
traversal with its error, exactly as the raised exception would. -/
def collectEntries :
    List (String × Except EmitError (List Nat)) →
    Except EmitError (List (String × List Nat))
  | [] => .ok []
  | (path, c) :: rest =>
    match c with
    | .error e => .error e
    | .ok bs =>
      match collectEntries rest with
      | .error e => .error e
      | .ok l => .ok ((path, bs) :: l)

/-- The fully materialized artifact sequence of `Package.files`. -/
def Package.files (p : Package) (now : String) :
    Except EmitError (List (String × List Nat)) :=
  collectEntries (p.rawEntries now)

/-- The artifact sequence when every entry encodes successfully: the value
`Package.files` produces in the non-exceptional case. -/
def Package.filesOk (p : Package) (now : String) : List (String × List Nat) :=
  p.metadata.platformJsons.map
    (fun pj => ("Platforms/" ++ pj.1 ++ ".json", jsonBytes pj.2)) ++
  [(p.metadata.coreDirectory ++ "/core.json", jsonBytes (p.metadata.coreJson now))] ++
  (if p.metadata.infoTxt = "" then []
   else [(p.metadata.coreDirectory ++ "/info.txt", p.metadata.infoTxt.data.map Char.toNat)]) ++
  [(p.metadata.coreDirectory ++ "/video.json", jsonBytes p.metadata.videoJson),
   (p.metadata.coreDirectory ++ "/audio.json", jsonBytes p.metadata.audioJson),
   (p.metadata.coreDirectory ++ "/input.json", jsonBytes p.metadata.inputJson),
   (p.metadata.coreDirectory ++ "/interact.json", jsonBytes p.metadata.interactJson),
   (p.metadata.coreDirectory ++ "/data.json", jsonBytes p.metadata.dataJson),
   (p.metadata.coreDirectory ++ "/variants.json", jsonBytes p.metadata.variantsJson)] ++
  (p.cores.map Prod.snd).enum.map
    (fun ic => (p.metadata.coreDirectory ++ "/core_" ++ natStr ic.1 ++ ".rbf_r",
                encodeBytes ic.2))

/-- The final state of the output directory tree written by
`Package.write_files` (packaging.py lines 393-398): each entry is written at
its path, a later write to the same path overwriting an earlier one. -/
def materializeTree (l : List (String × List Nat)) : List (String × List Nat) :=
  l.foldl (fun acc e => dictInsert acc e.1 e.2) []

def Package.writeFilesOutput (p : Package) (now : String) :
    Except EmitError (List (String × List Nat)) :=
  (p.files now).map materializeTree

/-- The archive written by `Package.write_zip_file` (packaging.py lines
400-403): its name and its members in insertion order. -/
def Package.writeZipOutput (p : Package) (now : String) :
    Except EmitError (String × List (String × List Nat)) :=
  (p.files now).map (fun l => (p.metadata.zipFilename now, l))

/-! ### Auxiliary definitions for stating the claims -/

/-- The constraints the schema places on one (table-shaped) video mode,
mirrored at the model level: bounds on dimensions, positive pixel
dimensions, both present or both absent, rotation in the enumeration. -/
def VideoMode.schemaOk (mode : VideoMode) : Bool :=
  decide (16 ≤ mode.width) && decide (mode.width ≤ 800) &&
  decide (16 ≤ mode.height) && decide (mode.height ≤ 720) &&
  decide (1 ≤ mode.pixel_width.getD 1) && decide (1 ≤ mode.pixel_height.getD 1) &&
  (mode.pixel_width.isSome == mode.pixel_height.isSome) &&
  (match mode.rotation with
   | none => true
   | some r => r == 0 || r == 90 || r == 180 || r == 270)

/-- The spec reading of the version pattern: the string begins with three
non-empty decimal digit groups separated by literal dot characters. -/
def startsWithDottedTriple (s : String) : Bool :=
  let sp1 := s.data.span isDigitCh
  !sp1.1.isEmpty &&
  (match sp1.2 with
   | c1 :: r1 =>
     (c1 == '.') &&
     (let sp2 := r1.span isDigitCh
      !sp2.1.isEmpty &&
      (match sp2.2 with
       | c2 :: r2 => (c2 == '.') && !(r2.span isDigitCh).1.isEmpty
       | [] => false))
   | [] => false)

/-- A video mode table carrying the undeclared key `frobnicate`. -/
def modeExtraElem : List (String × TomlVal) :=
  [("width", .int 16), ("height", .int 16), ("frobnicate", .bool true)]

/-- The fields of a document whose single video mode carries the undeclared
key `frobnicate`; every closed level of the schema is satisfied. -/
def modeExtraKeyKvs : List (String × TomlVal) :=
  [("metadata", .table
     [("platform", .arr []),
      ("core", .table
        [("author", .str "a"),
         ("name", .str "n"),
         ("version", .str "1.0.0")])]),
   ("video", .table [("mode", .arr [.table modeExtraElem])])]

def modeExtraKeyDoc : TomlVal := .table modeExtraKeyKvs

/-- A document whose `metadata.core.version` is `"1a2b3"`: no literal dots,
yet it matches the pattern because the unescaped `.` matches any
character. -/
def oddVersionDoc : TomlVal :=
  .table
    [("metadata", .table
       [("platform", .arr []),
        ("core", .table
          [("author", .str "a"),
           ("name", .str "n"),
           ("version", .str "1a2b3")])]),
     ("video", .table [("mode", .arr [])])]

/-- A document with two platforms sharing the id `"dup"`; the schema does
not require platform ids to be distinct. -/
def dupPlatformDoc : TomlVal :=
  .table
    [("metadata", .table
       [("platform", .arr
          [.table
            [("id", .str "dup"),
             ("name", .str "First"),
             ("manufacturer", .str "M1"),
             ("year", .int 1990)],
           .table
            [("id", .str "dup"),
             ("name", .str "Second"),
             ("manufacturer", .str "M2"),
             ("year", .int 1991)]]),
        ("core", .table
          [("author", .str "a"),
           ("name", .str "n"),
           ("version", .str "1.0.0")])]),
     ("video", .table [("mode", .arr [])])]

/-- The metadata model corresponding to `dupPlatformDoc`. -/
def dupPlatformMetadata : Metadata :=
  { metadata_platform :=
      [{ id := "dup", category := none, name := "First",
         manufacturer := "M1", year := 1990 },
       { id := "dup", category := none, name := "Second",
         manufacturer := "M2", year := 1991 }],
    metadata_core :=
      { author := "a", name := "n", description := none,
        description_long := none, url := none, version := "1.0.0",
        release_date := some "2024-01-01" },
    core := none,
    video_mode := [],
    core_names := [] }

/-- A small single-platform model used to instantiate the universally
quantified claims. -/
def demoMetadata : Metadata :=
  { metadata_platform :=
      [{ id := "snes9x", category := none, name := "SNES",
         manufacturer := "Nintendo", year := 1990 }],
    metadata_core :=
      { author := "auth", name := "core", description := none,
        description_long := some "A demo core.", url := none,
        version := "1.0.0", release_date := some "2024-01-01" },
    core := none,
    video_mode :=
      [{ width := 256, height := 224, pixel_width := some 8,
         pixel_height := some 7, rotation := none,
         mirror_horizontal := none, mirror_vertical := none }],
    core_names := ["boot"] }

def demoPackage : Package :=
  { metadata := demoMetadata, cores := [("boot", [128, 1, 255])] }

/-- The demo model with a non-ASCII long description. -/
def demoMetadataBadInfo : Metadata :=
  { demoMetadata with metadata_core :=
      { demoMetadata.metadata_core with description_long := some "héllo" } }

def demoPackageBadInfo : Package :=
  { metadata := demoMetadataBadInfo, cores := [("boot", [128, 1, 255])] }

/-- The video mode of the spot check: 256×224 with 8:7 pixels. -/
def demoVideoMode : VideoMode :=
  { width := 256, height := 224, pixel_width := some 8, pixel_height := some 7,
    rotation := none, mirror_horizontal := none, mirror_vertical := none }

/-- The demo video mode with explicit mirror flags. -/
def modeMirror (h v : Bool) : VideoMode :=
  { demoVideoMode with mirror_horizontal := some h, mirror_vertical := some v }

/-! ### ASCII safety of the serializer -/

theorem asciiChar_digitCh (n : Nat) : asciiChar (digitCh n) = true := by
  unfold digitCh
  split <;> rfl

theorem allAscii_append (a b : List Char) :
    allAscii (a ++ b) = (allAscii a && allAscii b) := by
  simp [allAscii]

theorem allAscii_natChars (n : Nat) : allAscii (natChars n) = true := by
  induction n using Nat.strong_induction_on with
  | _ n ih =>
    rw [natChars]
    split
    · simp [allAscii, asciiChar_digitCh]
    · rw [allAscii_append]
      have h1 := ih (n / 10) (Nat.div_lt_self (by omega) (by omega))
      rw [h1]
      simp [allAscii, asciiChar_digitCh]

theorem allAscii_intChars (n : Int) : allAscii (intChars n) = true := by
  unfold intChars
  split
  · simp only [allAscii, List.all_cons]
    have h := allAscii_natChars n.natAbs
    simp only [allAscii] at h
    rw [h]
    decide
  · exact allAscii_natChars n.natAbs

theorem asciiChar_hexCh (n : Nat) : asciiChar (hexCh n) = true := by
  unfold hexCh
  split
  · exact asciiChar_digitCh n
  · split <;> rfl

theorem allAscii_uEsc (n : Nat) : allAscii (uEsc n) = true := by
  simp [uEsc, allAscii, List.all_cons, asciiChar_hexCh]
  exact ⟨rfl, rfl⟩

theorem allAscii_escCh (c : Char) : allAscii (escCh c) = true := by
  unfold escCh
  split
  · rfl
  split
  · rfl
  split
  · rfl
  split
  · rfl
  split
  · rfl
  split
  · rfl
  split
  · rfl
  split
  · rename_i h
    simp only [Bool.and_eq_true, decide_eq_true_eq] at h
    simp [allAscii, asciiChar]
    omega
  split
  · exact allAscii_uEsc _
  · rw [allAscii_append]
    simp [allAscii_uEsc]

theorem allAscii_flattenEsc (s : List Char) :
    allAscii ((s.map escCh).flatten) = true := by
  induction s with
  | nil => rfl
  | cons c cs ih =>
    simp only [List.map_cons, List.flatten_cons]
    rw [allAscii_append, allAscii_escCh, ih]
    rfl

theorem allAscii_quoteChars (s : List Char) : allAscii (quoteChars s) = true := by
  simp only [quoteChars, allAscii, List.all_cons]
  have h := allAscii_flattenEsc s
  simp only [allAscii] at h
  simp [h, asciiChar]

theorem allAscii_spaces (n : Nat) : allAscii (spaces n) = true := by
  simp only [spaces, allAscii, List.all_eq_true]
  intro c hc
  rw [List.eq_of_mem_replicate hc]
  rfl

theorem allAscii_dumpItems (xs : List Json) (x : Json) (ind : Nat)
    (h : ∀ y ∈ x :: xs, allAscii (dumpChars ind y) = true) :
    allAscii (dumpItems ind x xs) = true := by
  induction xs generalizing x with
  | nil =>
    rw [dumpItems, allAscii_append, allAscii_spaces, h x (by simp)]
    rfl
  | cons y ys ih =>
    rw [dumpItems]
    rw [allAscii_append, allAscii_append, allAscii_spaces, h x (by simp)]
    have hy : allAscii (',' :: '\n' :: dumpItems ind y ys) =
        allAscii (dumpItems ind y ys) := by
      simp [allAscii, asciiChar]
    rw [hy, ih y (fun z hz => h z (List.mem_cons_of_mem _ hz))]
    rfl

theorem allAscii_dumpFields (fs : List (String × Json)) (f : String × Json) (ind : Nat)
    (h : ∀ g ∈ f :: fs, allAscii (dumpChars ind g.2) = true) :
    allAscii (dumpFields ind f fs) = true := by
  induction fs generalizing f with
  | nil =>
    rw [dumpFields, allAscii_append, allAscii_spaces, allAscii_append, allAscii_quoteChars]
    have hx : allAscii (':' :: ' ' :: dumpChars ind f.2) = allAscii (dumpChars ind f.2) := by
      simp [allAscii, asciiChar]
    rw [hx, h f (by simp)]
    rfl
  | cons g gs ih =>
    rw [dumpFields]
    rw [allAscii_append, allAscii_append, allAscii_spaces, allAscii_append,
      allAscii_quoteChars]
    have hx : allAscii (':' :: ' ' :: dumpChars ind f.2) = allAscii (dumpChars ind f.2) := by
      simp [allAscii, asciiChar]
    have hy : allAscii (',' :: '\n' :: dumpFields ind g gs) =
        allAscii (dumpFields ind g gs) := by
      simp [allAscii, asciiChar]
    rw [hx, h f (by simp), hy, ih g (fun z hz => h z (List.mem_cons_of_mem _ hz))]
    rfl

theorem allAscii_dumpChars (j : Json) (ind : Nat) :
    allAscii (dumpChars ind j) = true := by
  have main : ∀ N j, sizeOf j < N → ∀ ind, allAscii (dumpChars ind j) = true := by
    intro N
    induction N with
    | zero => intro j h; exact absurd h (Nat.not_lt_zero _)
    | succ N ih =>
      intro j hj ind
      match j with
      | .str s => rw [dumpChars]; exact allAscii_quoteChars s.data
      | .int n => rw [dumpChars]; exact allAscii_intChars n
      | .bool b => rw [dumpChars]; cases b <;> rfl
      | .arr [] => rw [dumpChars]; rfl
      | .arr (x :: xs) =>
        rw [dumpChars]
        have harr : ∀ y ∈ x :: xs, allAscii (dumpChars (ind + 4) y) = true := by
          intro y hy
          apply ih
          have h1 := List.sizeOf_lt_of_mem hy
          have h2 : sizeOf (Json.arr (x :: xs)) = 1 + sizeOf (x :: xs) := by
            simp
          omega
        have hitems := allAscii_dumpItems xs x (ind + 4) harr
        simp only [allAscii, List.all_cons, List.all_append] at hitems ⊢
        have hsp := allAscii_spaces ind
        simp only [allAscii] at hsp
        simp [hitems, hsp, asciiChar]
      | .obj [] => rw [dumpChars]; rfl
      | .obj (f :: fs) =>
        rw [dumpChars]
        have hobj : ∀ g ∈ f :: fs, allAscii (dumpChars (ind + 4) g.2) = true := by
          intro g hg
          apply ih
          have h1 := List.sizeOf_lt_of_mem hg
          have h2 : sizeOf (Json.obj (f :: fs)) = 1 + sizeOf (f :: fs) := by
            simp
          have h3 : sizeOf g.2 < sizeOf g := by
            obtain ⟨a, b⟩ := g
            simp
          omega
        have hfields := allAscii_dumpFields fs f (ind + 4) hobj
        simp only [allAscii, List.all_cons, List.all_append] at hfields ⊢
        have hsp := allAscii_spaces ind
        simp only [allAscii] at hsp
        simp [hfields, hsp, asciiChar]
  exact main (sizeOf j + 1) j (Nat.lt_succ_self _) ind

theorem asciiEncode_eq_ok (cs : List Char) (h : allAscii cs = true) :
    asciiEncode cs = .ok (cs.map Char.toNat) := by
  simp [asciiEncode, h]

/-- The serializer never fails the ASCII encoding: with `ensure_ascii=True`
every non-ASCII character was escaped. -/
theorem dumpJsonBytes_eq (j : Json) : dumpJsonBytes j = .ok (jsonBytes j) := by
  rw [dumpJsonBytes, asciiEncode_eq_ok _ (allAscii_dumpChars j 0)]
  rfl

/-! ### Driving the entry generator -/

theorem collectEntries_of_ok (V : List (String × List Nat)) :
    collectEntries (V.map (fun e => (e.1, Except.ok e.2))) = .ok V := by
  induction V with
  | nil => rfl
  | cons e es ih =>
    simp [collectEntries, ih]

theorem collectEntries_append_ok (A B : List (String × Except EmitError (List Nat)))
    (okA : List (String × List Nat)) (h : collectEntries A = .ok okA) :
    collectEntries (A ++ B) = (collectEntries B).map (fun l => okA ++ l) := by
  induction A generalizing okA with
  | nil =>
    simp only [collectEntries] at h
    cases h
    simp only [List.nil_append]
    cases hB : collectEntries B <;> simp [Except.map]
  | cons e es ih =>
    obtain ⟨path, c⟩ := e
    cases c with
    | error err => simp [collectEntries] at h
    | ok bs =>
      simp only [collectEntries] at h
      cases hes : collectEntries es with
      | error err => rw [hes] at h; exact absurd h (by simp)
      | ok l' =>
        rw [hes] at h
        simp only [Except.ok.injEq] at h
        subst h
        simp only [List.cons_append, collectEntries, List.append_eq]
        rw [ih l' hes]
        cases hB : collectEntries B <;> simp [Except.map]

theorem collectEntries_cons_error (path : String) (e : EmitError)
    (rest : List (String × Except EmitError (List Nat))) :
    collectEntries ((path, Except.error e) :: rest) = .error e := rfl

theorem rawEntries_eq_map_ok (p : Package) (now : String)
    (h : allAscii p.metadata.infoTxt.data = true) :
    p.rawEntries now = (p.filesOk now).map (fun e => (e.1, Except.ok e.2)) := by
  by_cases hinfo : p.metadata.infoTxt = ""
  · simp [Package.rawEntries, Package.filesOk, hinfo, List.map_append, List.map_map,
      Function.comp_def, dumpJsonBytes_eq]
  · simp [Package.rawEntries, Package.filesOk, hinfo, List.map_append, List.map_map,
      Function.comp_def, dumpJsonBytes_eq, asciiEncode_eq_ok _ h]

/-- The behaviour of `Package.files`: every JSON manifest encodes, so the
only possible failure is the plain-ASCII encoding of the info text. -/
theorem files_eq (p : Package) (now : String) :
    p.files now =
      if allAscii p.metadata.infoTxt.data = true then Except.ok (p.filesOk now)
      else Except.error EmitError.asciiEncodeError := by
  split
  · rename_i h
    rw [Package.files, rawEntries_eq_map_ok p now h, collectEntries_of_ok]
  · rename_i h
    have hne : p.metadata.infoTxt ≠ "" := by
      intro he
      apply h
      rw [he]
      rfl
    have herr : asciiEncode p.metadata.infoTxt.data = .error .asciiEncodeError := by
      simp only [asciiEncode]
      rw [if_neg (by simpa using h)]
    have hA : collectEntries
        (p.metadata.platformJsons.map
          (fun pj => ("Platforms/" ++ pj.1 ++ ".json", dumpJsonBytes pj.2)) ++
         [(p.metadata.coreDirectory ++ "/core.json",
           dumpJsonBytes (p.metadata.coreJson now))]) =
        .ok (p.metadata.platformJsons.map
          (fun pj => ("Platforms/" ++ pj.1 ++ ".json", jsonBytes pj.2)) ++
         [(p.metadata.coreDirectory ++ "/core.json",
           jsonBytes (p.metadata.coreJson now))]) := by
      have hlift : p.metadata.platformJsons.map
          (fun pj => ("Platforms/" ++ pj.1 ++ ".json", dumpJsonBytes pj.2)) ++
         [(p.metadata.coreDirectory ++ "/core.json",
           dumpJsonBytes (p.metadata.coreJson now))] =
          (p.metadata.platformJsons.map
            (fun pj => ("Platforms/" ++ pj.1 ++ ".json", jsonBytes pj.2)) ++
           [(p.metadata.coreDirectory ++ "/core.json",
             jsonBytes (p.metadata.coreJson now))]).map
            (fun e => (e.1, Except.ok e.2)) := by
        simp [List.map_append, List.map_map, Function.comp_def, dumpJsonBytes_eq]
      rw [hlift, collectEntries_of_ok]
    rw [Package.files, Package.rawEntries, if_neg hne]
    have hassoc :
        p.metadata.platformJsons.map
          (fun pj => ("Platforms/" ++ pj.1 ++ ".json", dumpJsonBytes pj.2)) ++
        [(p.metadata.coreDirectory ++ "/core.json",
          dumpJsonBytes (p.metadata.coreJson now))] ++
        [(p.metadata.coreDirectory ++ "/info.txt",
          asciiEncode p.metadata.infoTxt.data)] ++
        [(p.metadata.coreDirectory ++ "/video.json", dumpJsonBytes p.metadata.videoJson),
         (p.metadata.coreDirectory ++ "/audio.json", dumpJsonBytes p.metadata.audioJson),
         (p.metadata.coreDirectory ++ "/input.json", dumpJsonBytes p.metadata.inputJson),
         (p.metadata.coreDirectory ++ "/interact.json", dumpJsonBytes p.metadata.interactJson),
         (p.metadata.coreDirectory ++ "/data.json", dumpJsonBytes p.metadata.dataJson),
         (p.metadata.coreDirectory ++ "/variants.json", dumpJsonBytes p.metadata.variantsJson)] ++
        (p.cores.map Prod.snd).enum.map
          (fun ic => (p.metadata.coreDirectory ++ "/core_" ++ natStr ic.1 ++ ".rbf_r",
                      Except.ok (encodeBytes ic.2))) =
        (p.metadata.platformJsons.map
          (fun pj => ("Platforms/" ++ pj.1 ++ ".json", dumpJsonBytes pj.2)) ++
         [(p.metadata.coreDirectory ++ "/core.json",
           dumpJsonBytes (p.metadata.coreJson now))]) ++
        ((p.metadata.coreDirectory ++ "/info.txt",
          asciiEncode p.metadata.infoTxt.data) ::
         ([(p.metadata.coreDirectory ++ "/video.json", dumpJsonBytes p.metadata.videoJson),
           (p.metadata.coreDirectory ++ "/audio.json", dumpJsonBytes p.metadata.audioJson),
           (p.metadata.coreDirectory ++ "/input.json", dumpJsonBytes p.metadata.inputJson),
           (p.metadata.coreDirectory ++ "/interact.json", dumpJsonBytes p.metadata.interactJson),
           (p.metadata.coreDirectory ++ "/data.json", dumpJsonBytes p.metadata.dataJson),
           (p.metadata.coreDirectory ++ "/variants.json", dumpJsonBytes p.metadata.variantsJson)] ++
          (p.cores.map Prod.snd).enum.map
            (fun ic => (p.metadata.coreDirectory ++ "/core_" ++ natStr ic.1 ++ ".rbf_r",
                        Except.ok (encodeBytes ic.2))))) := by
      simp [List.append_assoc]
    rw [hassoc, collectEntries_append_ok _ _ _ hA, herr, collectEntries_cons_error]
    rfl

/-! ### Dictionary insertion and `platform_jsons` -/

theorem dictInsert_keys {α : Type} (d : List (String × α)) (k : String) (v : α) :
    (dictInsert d k v).map Prod.fst =
      if d.any (fun kv => kv.1 == k) then d.map Prod.fst
      else d.map Prod.fst ++ [k] := by
  unfold dictInsert
  split
  · rename_i h
    rw [List.map_map]
    apply List.map_congr_left
    intro kv _
    by_cases hk : kv.1 == k
    · have : kv.1 = k := by simpa using hk
      simp [hk, Function.comp, this]
    · simp [hk, Function.comp]
  · simp

theorem find?_cons_pos' {α : Type} (p : α → Bool) (a : α) (l : List α)
    (h : p a = true) : (a :: l).find? p = some a := by
  simp [List.find?, h]

theorem find?_cons_neg' {α : Type} (p : α → Bool) (a : α) (l : List α)
    (h : p a = false) : (a :: l).find? p = l.find? p := by
  simp [List.find?, h]

theorem find?_map_replace {α : Type} (d : List (String × α)) (k : String) (v : α)
    (h : d.any (fun kv => kv.1 == k) = true) :
    ((d.map (fun kv => if kv.1 == k then (k, v) else kv)).find?
      (fun kv => kv.1 == k)).map Prod.snd = some v := by
  induction d with
  | nil => simp at h
  | cons e es ih =>
    by_cases he : (e.1 == k) = true
    · rw [List.map_cons, if_pos he,
        find?_cons_pos' (fun kv => kv.1 == k) (k, v) _ (by simp)]
      rfl
    · have hfalse : (e.1 == k) = false := by simpa using he
      rw [List.map_cons, if_neg he, find?_cons_neg' (fun kv => kv.1 == k) e _ hfalse]
      exact ih (by simpa [hfalse] using h)

theorem find?_map_keep {α : Type} (d : List (String × α)) (k k' : String) (v : α)
    (hk : k' ≠ k) :
    (d.map (fun kv => if kv.1 == k then (k, v) else kv)).find?
      (fun kv => kv.1 == k') = d.find? (fun kv => kv.1 == k') := by
  induction d with
  | nil => rfl
  | cons e es ih =>
    rw [List.map_cons]
    by_cases he : (e.1 == k) = true
    · have he' : e.1 = k := by simpa using he
      have h1 : (((k, v) : String × α).1 == k') = false := by
        simp
        exact fun hh => hk (Eq.symm hh)
      have h2 : (e.1 == k') = false := by
        simp [he']
        exact fun hh => hk (Eq.symm hh)
      rw [if_pos he, find?_cons_neg' (fun kv => kv.1 == k') (k, v) _ h1,
        find?_cons_neg' (fun kv => kv.1 == k') e _ h2]
      exact ih
    · rw [if_neg he]
      by_cases h2 : (e.1 == k') = true
      · rw [find?_cons_pos' (fun kv => kv.1 == k') e _ h2,
          find?_cons_pos' (fun kv => kv.1 == k') e _ h2]
      · have h2f : (e.1 == k') = false := by simpa using h2
        rw [find?_cons_neg' (fun kv => kv.1 == k') e _ h2f,
          find?_cons_neg' (fun kv => kv.1 == k') e _ h2f]
        exact ih

theorem find?_dictInsert {α : Type} (d : List (String × α)) (k : String) (v : α)
    (k' : String) :
    ((dictInsert d k v).find? (fun kv => kv.1 == k')).map Prod.snd =
      if k' = k then some v
      else (d.find? (fun kv => kv.1 == k')).map Prod.snd := by
  unfold dictInsert
  split
  · rename_i h
    by_cases hk : k' = k
    · subst hk
      rw [if_pos rfl]
      exact find?_map_replace d k' v h
    · rw [if_neg hk, find?_map_keep d k k' v hk]
  · rename_i h
    rw [List.find?_append]
    by_cases hk : k' = k
    · subst hk
      have hnone : d.find? (fun kv => kv.1 == k') = none := by
        rw [List.find?_eq_none]
        intro x hx hpx
        exact h (List.any_eq_true.2 ⟨x, hx, hpx⟩)
      rw [hnone, if_pos rfl]
      simp [List.find?]
    · have hone : ([(k, v)].find? (fun kv => kv.1 == k')) = none := by
        rw [List.find?_eq_none]
        intro x hx
        simp at hx
        subst hx
        simp
        exact fun hh => hk (Eq.symm hh)
      rw [hone, if_neg hk]
      simp

theorem dictInsert_length {α : Type} (d : List (String × α)) (k : String) (v : α) :
    (dictInsert d k v).length =
      if d.any (fun kv => kv.1 == k) then d.length else d.length + 1 := by
  unfold dictInsert
  split <;> simp

theorem mem_keys_dictInsert {α : Type} (d : List (String × α)) (k : String) (v : α)
    (x : String) :
    x ∈ (dictInsert d k v).map Prod.fst ↔ x ∈ d.map Prod.fst ∨ x = k := by
  rw [dictInsert_keys]
  split
  · rename_i h
    constructor
    · exact Or.inl
    · rintro (hx | rfl)
      · exact hx
      · obtain ⟨kv, hkv, hbeq⟩ := List.any_eq_true.1 h
        have : kv.1 = x := by simpa using hbeq
        exact this ▸ List.mem_map_of_mem Prod.fst hkv
  · simp

theorem any_keys_iff {α : Type} (d : List (String × α)) (k : String) :
    d.any (fun kv => kv.1 == k) = true ↔ k ∈ d.map Prod.fst := by
  rw [List.any_eq_true]
  constructor
  · rintro ⟨kv, hkv, hbeq⟩
    have : kv.1 = k := by simpa using hbeq
    exact this ▸ List.mem_map_of_mem Prod.fst hkv
  · intro hm
    obtain ⟨kv, hkv, hfst⟩ := List.mem_map.1 hm
    exact ⟨kv, hkv, by simp [hfst]⟩

theorem nodup_keys_dictInsert {α : Type} (d : List (String × α)) (k : String) (v : α)
    (h : (d.map Prod.fst).Nodup) : ((dictInsert d k v).map Prod.fst).Nodup := by
  rw [dictInsert_keys]
  split
  · exact h
  · rename_i hany
    have hk : k ∉ d.map Prod.fst := fun hm => hany ((any_keys_iff d k).2 hm)
    simp [List.nodup_append, h, hk]

/-- Keys of an insertion-built dictionary after a fold stay or grow. -/
theorem mem_keys_foldl {α β : Type} (key : β → String) (val : β → α) (ps : List β) :
    ∀ (acc : List (String × α)) (x : String),
      x ∈ ((ps.foldl (fun d p => dictInsert d (key p) (val p)) acc).map Prod.fst) ↔
        x ∈ acc.map Prod.fst ∨ x ∈ ps.map key := by
  induction ps with
  | nil => intro acc x; simp
  | cons p ps ih =>
    intro acc x
    rw [List.foldl_cons, ih]
    rw [mem_keys_dictInsert]
    simp only [List.map_cons, List.mem_cons]
    tauto

theorem nodup_keys_foldl {α β : Type} (key : β → String) (val : β → α) (ps : List β) :
    ∀ (acc : List (String × α)), (acc.map Prod.fst).Nodup →
      ((ps.foldl (fun d p => dictInsert d (key p) (val p)) acc).map Prod.fst).Nodup := by
  induction ps with
  | nil => intro acc h; exact h
  | cons p ps ih =>
    intro acc h
    rw [List.foldl_cons]
    exact ih _ (nodup_keys_dictInsert _ _ _ h)

theorem find?_foldl {α β : Type} (key : β → String) (val : β → α) (ps : List β) :
    ∀ (acc : List (String × α)) (k : String),
      (((ps.foldl (fun d p => dictInsert d (key p) (val p)) acc).find?
          (fun kv => kv.1 == k)).map Prod.snd) =
        match ps.reverse.find? (fun p => key p == k) with
        | some q => some (val q)
        | none => (acc.find? (fun kv => kv.1 == k)).map Prod.snd := by
  induction ps with
  | nil => intro acc k; rfl
  | cons p ps ih =>
    intro acc k
    rw [List.foldl_cons, ih]
    rw [List.reverse_cons, List.find?_append]
    cases hrev : ps.reverse.find? (fun p => key p == k) with
    | some q => simp
    | none =>
      simp only [Option.none_or]
      rw [find?_dictInsert]
      by_cases hk : k = key p
      · subst hk
        simp [List.find?]
      · have hne : (key p == k) = false := by
          simp
          exact fun hh => hk (Eq.symm hh)
        simp [List.find?, hne, hk]

theorem length_foldl_le {α β : Type} (key : β → String) (val : β → α) (ps : List β) :
    ∀ (acc : List (String × α)),
      (ps.foldl (fun d p => dictInsert d (key p) (val p)) acc).length ≤
        acc.length + ps.length := by
  induction ps with
  | nil => intro acc; simp
  | cons p ps ih =>
    intro acc
    rw [List.foldl_cons]
    calc (ps.foldl _ (dictInsert acc (key p) (val p))).length
        ≤ (dictInsert acc (key p) (val p)).length + ps.length := ih _
      _ ≤ (acc.length + 1) + ps.length := by
          rw [dictInsert_length]
          split <;> omega
      _ = acc.length + (p :: ps).length := by simp; omega

theorem length_foldl_lt_of_key {α β : Type} (key : β → String) (val : β → α) (ps : List β) :
    ∀ (acc : List (String × α)) (k : String), k ∈ acc.map Prod.fst →
      k ∈ ps.map key →
      (ps.foldl (fun d p => dictInsert d (key p) (val p)) acc).length + 1 ≤
        acc.length + ps.length := by
  induction ps with
  | nil => intro acc k _ hk; simp at hk
  | cons p ps ih =>
    intro acc k hacc hk
    rw [List.foldl_cons]
    rcases List.mem_cons.1 hk with heq | htail
    · by_cases hid : k ∈ ps.map key
      · have hacc2 : k ∈ (dictInsert acc (key p) (val p)).map Prod.fst := by
          rw [mem_keys_dictInsert]
          exact Or.inl hacc
        have := ih _ k hacc2 hid
        have hlen := dictInsert_length acc (key p) (val p)
        rw [hlen] at this
        revert this
        split <;> (intro this; simp only [List.length_cons]; omega)
      · have hupd : acc.any (fun kv => kv.1 == key p) = true := by
          rw [any_keys_iff]
          rw [← heq]
          exact hacc
        have hlen := dictInsert_length acc (key p) (val p)
        rw [if_pos hupd] at hlen
        have := length_foldl_le key val ps (dictInsert acc (key p) (val p))
        rw [hlen] at this
        simp only [List.length_cons]
        omega
    · have hacc2 : k ∈ (dictInsert acc (key p) (val p)).map Prod.fst := by
        rw [mem_keys_dictInsert]
        exact Or.inl hacc
      have := ih _ k hacc2 htail
      have hlen := dictInsert_length acc (key p) (val p)
      rw [hlen] at this
      revert this
      split <;> (intro this; simp only [List.length_cons]; omega)

theorem platformJsons_keys_nodup (m : Metadata) :
    (m.platformJsons.map Prod.fst).Nodup :=
  nodup_keys_foldl MetadataPlatform.id platformJson _ [] (by simp)

theorem platformJsons_mem_keys (m : Metadata) (x : String) :
    x ∈ m.platformJsons.map Prod.fst ↔ x ∈ m.metadata_platform.map MetadataPlatform.id := by
  rw [Metadata.platformJsons, mem_keys_foldl MetadataPlatform.id platformJson]
  simp

theorem platformJsons_find? (m : Metadata) (k : String) :
    ((m.platformJsons.find? (fun kv => kv.1 == k)).map Prod.snd) =
      match m.metadata_platform.reverse.find? (fun p => p.id == k) with
      | some q => some (platformJson q)
      | none => none := by
  rw [Metadata.platformJsons, find?_foldl MetadataPlatform.id platformJson]
  cases m.metadata_platform.reverse.find? (fun p => p.id == k) <;> rfl

theorem platformJsons_length_le (m : Metadata) :
    m.platformJsons.length ≤ m.metadata_platform.length := by
  have := length_foldl_le MetadataPlatform.id platformJson m.metadata_platform []
  simpa [Metadata.platformJsons] using this

theorem length_foldl_lt_of_dup {α β : Type} (key : β → String) (val : β → α) (ps : List β) :
    ∀ (acc : List (String × α)), ¬ (ps.map key).Nodup →
      (ps.foldl (fun d p => dictInsert d (key p) (val p)) acc).length <
        acc.length + ps.length := by
  induction ps with
  | nil => intro acc h; exact absurd List.nodup_nil h
  | cons p ps ih =>
    intro acc h
    rw [List.foldl_cons]
    have hins : (dictInsert acc (key p) (val p)).length ≤ acc.length + 1 := by
      rw [dictInsert_length]
      split <;> omega
    rcases Classical.em (key p ∈ ps.map key) with hin | hout
    · have hacc2 : key p ∈ (dictInsert acc (key p) (val p)).map Prod.fst := by
        rw [mem_keys_dictInsert]
        exact Or.inr rfl
      have hlt := length_foldl_lt_of_key key val ps _ (key p) hacc2 hin
      simp only [List.length_cons]
      omega
    · have hnd : ¬ (ps.map key).Nodup := by
        intro hc
        exact h (by simp only [List.map_cons, List.nodup_cons]; exact ⟨hout, hc⟩)
      have := ih (dictInsert acc (key p) (val p)) hnd
      simp only [List.length_cons]
      omega

theorem platformJsons_length_lt (m : Metadata)
    (h : ¬ (m.metadata_platform.map MetadataPlatform.id).Nodup) :
    m.platformJsons.length < m.metadata_platform.length := by
  have := length_foldl_lt_of_dup MetadataPlatform.id platformJson m.metadata_platform [] h
  simpa [Metadata.platformJsons] using this

theorem mem_dictInsert {α : Type} (d : List (String × α)) (k : String) (v : α)
    (e : String × α) (he : e ∈ dictInsert d k v) : e ∈ d ∨ e = (k, v) := by
  unfold dictInsert at he
  split at he
  · obtain ⟨kv, hkv, hmap⟩ := List.mem_map.1 he
    by_cases hk : (kv.1 == k) = true
    · rw [if_pos hk] at hmap
      exact Or.inr hmap.symm
    · rw [if_neg hk] at hmap
      exact Or.inl (hmap ▸ hkv)
  · rcases List.mem_append.1 he with h1 | h2
    · exact Or.inl h1
    · exact Or.inr (by simpa using h2)

theorem mem_foldl_entries {α β : Type} (key : β → String) (val : β → α) (ps : List β) :
    ∀ (acc : List (String × α)) (e : String × α),
      e ∈ ps.foldl (fun d p => dictInsert d (key p) (val p)) acc →
      e ∈ acc ∨ ∃ p ∈ ps, e = (key p, val p) := by
  induction ps with
  | nil => intro acc e he; exact Or.inl he
  | cons p ps ih =>
    intro acc e he
    rw [List.foldl_cons] at he
    rcases ih _ e he with hacc | ⟨q, hq, hqe⟩
    · rcases mem_dictInsert _ _ _ _ hacc with h1 | h2
      · exact Or.inl h1
      · exact Or.inr ⟨p, by simp, h2⟩
    · exact Or.inr ⟨q, List.mem_cons_of_mem _ hq, hqe⟩

theorem mem_keys_materializeTree (l : List (String × List Nat)) (path : String) :
    path ∈ (materializeTree l).map Prod.fst ↔ path ∈ l.map Prod.fst := by
  rw [materializeTree, mem_keys_foldl Prod.fst Prod.snd]
  simp

theorem mem_materializeTree (l : List (String × List Nat)) (e : String × List Nat)
    (he : e ∈ materializeTree l) : e ∈ l := by
  rw [materializeTree] at he
  rcases mem_foldl_entries Prod.fst Prod.snd l [] e he with h1 | ⟨p, hp, hpe⟩
  · exact absurd h1 (List.not_mem_nil e)
  · rw [hpe]
    simpa using hp

/-! ### Claim theorems -/

/-- C1: `encode` (the transform at emission of `core_{id}.rbf_r` entries)
preserves length, reverses the bit order of every byte (output bit `j` is
input bit `7 - j`), is an involution on byte sequences, and maps the single
byte `0b10000000` to `0b00000001`. -/
theorem C1_encode_bit_reversal :
    ∀ x : List Nat, (∀ b ∈ x, b < 256) →
      (encodeBytes x).length = x.length ∧
      (∀ i, i < x.length → ∀ j, j < 8 →
        ((encodeBytes x).getD i 0).testBit j = (x.getD i 0).testBit (7 - j)) ∧
      encodeBytes (encodeBytes x) = x ∧
      encodeBytes [128] = [1] := by
  have hbit : ∀ b < 256, ∀ j < 8, (rev8 b).testBit j = b.testBit (7 - j) := by decide
  have hinv : ∀ b < 256, rev8 (rev8 b) = b := by decide
  intro x hx
  refine ⟨by simp [encodeBytes], ?_, ?_, by decide⟩
  · intro i hi j hj
    have hmem : x.getD i 0 ∈ x := by
      rw [List.getD_eq_getElem?_getD, List.getElem?_eq_getElem hi]
      exact List.getElem_mem _
    have hget : (encodeBytes x).getD i 0 = rev8 (x.getD i 0) := by
      rw [encodeBytes, List.getD_eq_getElem?_getD, List.getD_eq_getElem?_getD,
        List.getElem?_map, List.getElem?_eq_getElem hi]
      rfl
    rw [hget]
    exact hbit _ (hx _ hmem) j hj
  · rw [encodeBytes, encodeBytes, List.map_map]
    have : ∀ b ∈ x, (rev8 ∘ rev8) b = id b := by
      intro b hb
      exact hinv b (hx b hb)
    rw [List.map_congr_left this, List.map_id]

/-- Witness for C1 at a concrete byte sequence. -/
theorem C1_encode_bit_reversal_witness :
    encodeBytes (encodeBytes [161, 0, 255]) = [161, 0, 255] :=
  (C1_encode_bit_reversal [161, 0, 255] (by decide)).2.2.1

/-- C6: the `mirror` field of a video manifest entry is
`2 × mirror_horizontal + mirror_vertical`, both flags defaulting to false;
in particular the four concrete combinations give 2, 3, 0 and 1. -/
theorem C6_mirror_field :
    (∀ mode : VideoMode,
      mode.mirrorField =
        2 * pyNat (mode.mirror_horizontal.getD false) +
          pyNat (mode.mirror_vertical.getD false)) ∧
    (modeMirror true false).mirrorField = 2 ∧
    (modeMirror true true).mirrorField = 3 ∧
    (modeMirror false false).mirrorField = 0 ∧
    demoVideoMode.mirrorField = 0 ∧
    (modeMirror false true).mirrorField = 1 := by
  refine ⟨?_, by decide, by decide, by decide, by decide, by decide⟩
  intro mode
  rw [VideoMode.mirrorField]
  cases hh : mode.mirror_horizontal.getD false <;>
    cases hv : mode.mirror_vertical.getD false <;> decide

/-- C10: on a validated model whose (non-empty) long description contains a
character outside ASCII, producing the artifact sequence fails with the
encoding error at the `info.txt` entry — an error distinct by construction
from schema validation failure — while JSON manifests always encode because
`json.dumps` escapes non-ASCII characters. -/
theorem C10_nonascii_info (p : Package) (now : String)
    (h : ∃ c ∈ p.metadata.infoTxt.data, 128 ≤ c.toNat) :
    p.files now = .error .asciiEncodeError ∧
    ∀ j : Json, dumpJsonBytes j = .ok (jsonBytes j) := by
  refine ⟨?_, dumpJsonBytes_eq⟩
  rw [files_eq, if_neg]
  intro hall
  obtain ⟨c, hc, hcc⟩ := h
  have := List.all_eq_true.1 hall c hc
  simp only [asciiChar, decide_eq_true_eq] at this
  omega

/-- Witness for C10: a concrete model with `description_long = "héllo"`. -/
theorem C10_nonascii_info_witness :
    demoPackageBadInfo.files "2024-01-01" = .error .asciiEncodeError :=
  (C10_nonascii_info demoPackageBadInfo "2024-01-01"
    ⟨'é', by decide, by decide⟩).1

/-- C5: for a video mode admitted by the schema, the `aspect_w`/`aspect_h`
pair of the video manifest is the exact reduced fraction of
`(width/height) × (pixel_width/pixel_height)` (pixel dimensions defaulting
to 1): cross-multiplication holds, the pair is coprime with positive
denominator, the manifest fields carry exactly that pair, and the spot check
256×224 with 8:7 pixels reduces to 64/49. -/
theorem C5_aspect_ratio :
    (∀ mode : VideoMode, mode.schemaOk = true →
      (mode.width * mode.pixel_width.getD 1) * (mode.aspect.den : Int) =
        mode.aspect.num * (mode.height * mode.pixel_height.getD 1) ∧
      Nat.Coprime mode.aspect.num.natAbs mode.aspect.den ∧
      0 < mode.aspect.den ∧
      jsonField (videoModeJson mode) "aspect_w" = some (.int mode.aspect.num) ∧
      jsonField (videoModeJson mode) "aspect_h" =
        some (.int (Int.ofNat mode.aspect.den))) ∧
    demoVideoMode.aspect.num = 64 ∧ demoVideoMode.aspect.den = 49 := by
  have h0 : demoVideoMode.aspect = mkRat 256 224 * mkRat 8 7 := rfl
  have h1 : demoVideoMode.aspect = Rat.divInt 2048 1568 := by
    rw [h0, Rat.mkRat_eq_divInt, Rat.mkRat_eq_divInt,
      Rat.divInt_mul_divInt _ _ (by norm_num) (by norm_num)]
    norm_num
  have h2 : Rat.divInt 2048 1568 = Rat.divInt 64 49 := by
    rw [Rat.divInt_eq_iff (by norm_num) (by norm_num)]
    norm_num
  have h3 : demoVideoMode.aspect = (⟨64, 49, by norm_num, by norm_num⟩ : Rat) := by
    rw [h1, h2, Rat.mk'_eq_divInt]
    norm_num
  refine ⟨?_, by rw [h3], by rw [h3]⟩
  intro mode h
  simp only [VideoMode.schemaOk, Bool.and_eq_true, decide_eq_true_eq] at h
  obtain ⟨⟨⟨⟨⟨⟨⟨hw1, hw2⟩, hh1⟩, hh2⟩, hpw⟩, hph⟩, hsome⟩, hrot⟩ := h
  have hHt : ((mode.height.toNat : Int)) = mode.height :=
    Int.toNat_of_nonneg (by omega)
  have hPt : (((mode.pixel_height.getD 1).toNat : Int)) = mode.pixel_height.getD 1 :=
    Int.toNat_of_nonneg (by omega)
  have hz1 : ((mode.height.toNat : Int)) ≠ 0 := by rw [hHt]; omega
  have hz2 : (((mode.pixel_height.getD 1).toNat : Int)) ≠ 0 := by rw [hPt]; omega
  have hq : mode.aspect =
      Rat.divInt (mode.width * mode.pixel_width.getD 1)
        (mode.height * mode.pixel_height.getD 1) := by
    rw [VideoMode.aspect, Rat.mkRat_eq_divInt, Rat.mkRat_eq_divInt,
      Rat.divInt_mul_divInt _ _ hz1 hz2, hHt, hPt]
  have hD0 : (mode.height * mode.pixel_height.getD 1) ≠ 0 := by
    intro hc
    rcases Int.mul_eq_zero.1 hc with h1 | h1 <;> omega
  have hden0 : ((mode.aspect.den : Int)) ≠ 0 :=
    Int.natCast_ne_zero.2 mode.aspect.den_nz
  have hcross := (Rat.divInt_eq_iff hD0 hden0).1 (by rw [← hq, Rat.num_divInt_den])
  refine ⟨hcross, mode.aspect.reduced, Nat.pos_of_ne_zero mode.aspect.den_nz, rfl, rfl⟩

/-- Witness for C5: the demo mode satisfies the schema and the reduced
cross-multiplication property. -/
theorem C5_aspect_ratio_witness :
    demoVideoMode.schemaOk = true ∧
    (demoVideoMode.width * demoVideoMode.pixel_width.getD 1) *
        (demoVideoMode.aspect.den : Int) =
      demoVideoMode.aspect.num *
        (demoVideoMode.height * demoVideoMode.pixel_height.getD 1) :=
  ⟨by decide, (C5_aspect_ratio.1 demoVideoMode (by decide)).1⟩

theorem releaseDate_of_some (m : Metadata) (d : String)
    (h : m.metadata_core.release_date = some d) (now : String) :
    m.releaseDate now = d := by
  simp [Metadata.releaseDate, h]

theorem files_now_independent (p : Package) (d : String)
    (h : p.metadata.metadata_core.release_date = some d) (now₁ now₂ : String) :
    p.files now₁ = p.files now₂ := by
  have hcj : p.metadata.coreJson now₁ = p.metadata.coreJson now₂ := by
    simp [Metadata.coreJson, Metadata.releaseDate, h]
  rw [Package.files, Package.files, Package.rawEntries, Package.rawEntries, hcj]

/-- C8: with `release_date` explicitly supplied, the two materializations
consume identical artifact sequences even at different wall-clock instants:
the archive output is reproducible, the final directory tree is exactly the
last-wins view of the archive members, and the tree has the same set of
relative paths as the member list with each tree entry byte-identical to an
archive member. -/
theorem C8_materialization_modes (p : Package) (d : String)
    (h : p.metadata.metadata_core.release_date = some d) (now₁ now₂ : String) :
    p.writeZipOutput now₁ = p.writeZipOutput now₂ ∧
    p.writeFilesOutput now₁ =
      (p.writeZipOutput now₂).map (fun z => materializeTree z.2) ∧
    (∀ l, p.files now₂ = .ok l →
      (∀ path, path ∈ (materializeTree l).map Prod.fst ↔ path ∈ l.map Prod.fst) ∧
      ∀ e ∈ materializeTree l, e ∈ l) := by
  have hfiles := files_now_independent p d h now₁ now₂
  have hzip : p.metadata.zipFilename now₁ = p.metadata.zipFilename now₂ := by
    simp [Metadata.zipFilename, Metadata.releaseDate, h]
  refine ⟨?_, ?_, ?_⟩
  · rw [Package.writeZipOutput, Package.writeZipOutput, hfiles, hzip]
  · rw [Package.writeFilesOutput, Package.writeZipOutput, hfiles]
    cases p.files now₂ <;> simp [Except.map]
  · intro l hl
    exact ⟨fun path => mem_keys_materializeTree l path,
      fun e he => mem_materializeTree l e he⟩

/-- Witness for C8 at the demo package, traversed at two different
dates. -/
theorem C8_materialization_modes_witness :
    demoPackage.writeZipOutput "2030-01-01" = demoPackage.writeZipOutput "2031-02-02" :=
  (C8_materialization_modes demoPackage "2024-01-01" rfl "2030-01-01" "2031-02-02").1

/-- C9: platform manifests are keyed by id in an insertion-ordered
dictionary: the keys are distinct and are exactly the (distinct) declared
ids, the value stored under an id comes from the last platform entry with
that id, the dictionary never exceeds — and under duplicate ids stays
strictly below — the number of platform entries, the package's leading
entries are exactly one `Platforms/{id}.json` per dictionary key, and the
schema admits a document with duplicate platform ids. -/
theorem C9_platform_dedup (m : Metadata) :
    (m.platformJsons.map Prod.fst).Nodup ∧
    (∀ x, x ∈ m.platformJsons.map Prod.fst ↔
      x ∈ m.metadata_platform.map MetadataPlatform.id) ∧
    (∀ k, ((m.platformJsons.find? (fun kv => kv.1 == k)).map Prod.snd) =
      match m.metadata_platform.reverse.find? (fun p => p.id == k) with
      | some q => some (platformJson q)
      | none => none) ∧
    m.platformJsons.length ≤ m.metadata_platform.length ∧
    (¬ (m.metadata_platform.map MetadataPlatform.id).Nodup →
      m.platformJsons.length < m.metadata_platform.length) ∧
    (∀ (cores : List (String × List Nat)) (now : String)
        (l : List (String × List Nat)),
      Package.files ⟨m, cores⟩ now = .ok l →
      l.take m.platformJsons.length =
        m.platformJsons.map
          (fun pj => ("Platforms/" ++ pj.1 ++ ".json", jsonBytes pj.2))) ∧
    validateDoc dupPlatformDoc = true ∧
    ¬ (dupPlatformMetadata.metadata_platform.map MetadataPlatform.id).Nodup := by
  refine ⟨platformJsons_keys_nodup m, platformJsons_mem_keys m,
    platformJsons_find? m, platformJsons_length_le m,
    platformJsons_length_lt m, ?_, by decide, by decide⟩
  intro cores now l hl
  rw [files_eq] at hl
  split at hl
  · simp only [Except.ok.injEq] at hl
    subst hl
    rw [Package.filesOk]
    have hlen : (m.platformJsons.map
        (fun pj => ("Platforms/" ++ pj.1 ++ ".json", jsonBytes pj.2))).length =
        m.platformJsons.length := by simp
    simp only [List.append_assoc]
    exact List.take_left' hlen
  · exact absurd hl (by simp)

/-- Witness for C9: the duplicate-id model yields one Platforms entry for
two platform declarations. -/
theorem C9_platform_dedup_witness :
    (dupPlatformMetadata.platformJsons.map Prod.fst).Nodup ∧
    dupPlatformMetadata.platformJsons.length <
      dupPlatformMetadata.metadata_platform.length :=
  ⟨(C9_platform_dedup dupPlatformMetadata).1,
   (C9_platform_dedup dupPlatformMetadata).2.2.2.2.1 (by decide)⟩

/-! ### Path disjointness inside one package -/

theorem platforms_path_ne_core (pid suffix : String) (m : Metadata) :
    ("Platforms/" ++ pid ++ ".json") ≠ (m.coreDirectory ++ suffix) := by
  intro h
  have hd := congrArg String.data h
  rw [Metadata.coreDirectory] at hd
  simp only [String.data_append] at hd
  simp at hd

theorem core_suffix_ne (m : Metadata) (s1 s2 : String) (hs : s1.data ≠ s2.data) :
    (m.coreDirectory ++ s1) ≠ (m.coreDirectory ++ s2) := by
  intro h
  have hd := congrArg String.data h
  simp only [String.data_append] at hd
  exact hs (List.append_cancel_left hd)

theorem rbf_path_ne_core_suffix (m : Metadata) (k : Nat) (s2 : String)
    (h2 : ∀ rest, "/core_".data ++ rest ≠ s2.data) :
    (m.coreDirectory ++ "/core_" ++ natStr k ++ ".rbf_r") ≠
      (m.coreDirectory ++ s2) := by
  intro h
  have hd := congrArg String.data h
  simp only [String.data_append, List.append_assoc] at hd
  exact h2 _ (List.append_cancel_left hd)

theorem core_ne_info (rest : List Char) :
    "/core_".data ++ rest ≠ "/info.txt".data := by
  intro h
  simp at h

theorem str_beq_false {a b : String} (h : a ≠ b) : (a == b) = false := by
  have hne : ¬ ((a == b) = true) := fun hc => h (by simpa using hc)
  cases hbe : (a == b)
  · rfl
  · exact absurd hbe hne

theorem countP_single {α : Type} (p : α → Bool) (a : α) :
    [a].countP p = if p a then 1 else 0 := by
  simp [List.countP_cons]

/-- C7: the package contains a `{core_directory}/info.txt` entry exactly
once when `description_long` is present and non-empty (never otherwise),
and such an entry's content is exactly the encoded info text. -/
theorem C7_info_txt (p : Package) (now : String) (l : List (String × List Nat))
    (hl : p.files now = .ok l) :
    l.countP (fun e => e.1 == p.metadata.coreDirectory ++ "/info.txt") =
      (match p.metadata.metadata_core.description_long with
       | some s => if s = "" then 0 else 1
       | none => 0) ∧
    (∀ bs, (p.metadata.coreDirectory ++ "/info.txt", bs) ∈ l →
      bs = p.metadata.infoTxt.data.map Char.toNat) ∧
    (p.metadata.infoTxt = "" →
      (p.metadata.coreDirectory ++ "/info.txt") ∉ l.map Prod.fst) := by
  rw [files_eq] at hl
  split at hl
  case isFalse => exact absurd hl (by simp)
  case isTrue =>
  simp only [Except.ok.injEq] at hl
  subst hl
  have hplat : ∀ pid : String,
      (("Platforms/" ++ pid ++ ".json" : String) ==
        p.metadata.coreDirectory ++ "/info.txt") = false :=
    fun pid => str_beq_false (platforms_path_ne_core pid "/info.txt" p.metadata)
  have hfix : ∀ s1 : String, s1.data ≠ "/info.txt".data →
      ((p.metadata.coreDirectory ++ s1 : String) ==
        p.metadata.coreDirectory ++ "/info.txt") = false :=
    fun s1 hs => str_beq_false (core_suffix_ne p.metadata s1 "/info.txt" hs)
  have hrbf : ∀ k : Nat,
      ((p.metadata.coreDirectory ++ "/core_" ++ natStr k ++ ".rbf_r" : String) ==
        p.metadata.coreDirectory ++ "/info.txt") = false :=
    fun k => str_beq_false
      (rbf_path_ne_core_suffix p.metadata k "/info.txt" core_ne_info)
  have hcount1 : (p.metadata.platformJsons.map
      (fun pj => ("Platforms/" ++ pj.1 ++ ".json", jsonBytes pj.2))).countP
        (fun e => e.1 == p.metadata.coreDirectory ++ "/info.txt") = 0 := by
    rw [List.countP_eq_zero]
    intro e he
    obtain ⟨pj, hpj, hpe⟩ := List.mem_map.1 he
    rw [← hpe]
    simp [hplat pj.1]
  have hcount5 : ((p.cores.map Prod.snd).enum.map
      (fun ic => (p.metadata.coreDirectory ++ "/core_" ++ natStr ic.1 ++ ".rbf_r",
        encodeBytes ic.2))).countP
        (fun e => e.1 == p.metadata.coreDirectory ++ "/info.txt") = 0 := by
    rw [List.countP_eq_zero]
    intro e he
    obtain ⟨ic, hic, hpe⟩ := List.mem_map.1 he
    rw [← hpe]
    simp [hrbf ic.1]
  refine ⟨?_, ?_, ?_⟩
  · rw [Package.filesOk]
    simp only [List.countP_append, hcount1, hcount5, countP_single,
      hfix "/core.json" (by decide), hfix "/video.json" (by decide),
      hfix "/audio.json" (by decide), hfix "/input.json" (by decide),
      hfix "/interact.json" (by decide), hfix "/data.json" (by decide),
      hfix "/variants.json" (by decide), List.countP_cons, List.countP_nil]
    cases hdl : p.metadata.metadata_core.description_long with
    | none =>
      have hempty : p.metadata.infoTxt = "" := by
        simp [Metadata.infoTxt, hdl]
      simp [hempty]
    | some s =>
      have hs : p.metadata.infoTxt = s := by
        simp [Metadata.infoTxt, hdl]
      by_cases hse : s = ""
      · simp [hs, hse]
      · simp [hs, hse, List.countP_cons]
  · intro bs hmem
    rw [Package.filesOk] at hmem
    rcases List.mem_append.1 hmem with h4 | hR
    · rcases List.mem_append.1 h4 with h3 | hS
      · rcases List.mem_append.1 h3 with h2 | hI
        · rcases List.mem_append.1 h2 with hA | hC
          · obtain ⟨pj, _, hpe⟩ := List.mem_map.1 hA
            exact absurd (congrArg Prod.fst hpe)
              (platforms_path_ne_core pj.1 "/info.txt" p.metadata)
          · have hc := List.mem_singleton.1 hC
            exact absurd (congrArg Prod.fst hc).symm
              (core_suffix_ne p.metadata "/core.json" "/info.txt" (by decide))
        · split at hI
          · exact absurd hI (List.not_mem_nil _)
          · exact (congrArg Prod.snd (List.mem_singleton.1 hI))
      · rcases List.mem_cons.1 hS with he | hS2
        · exact absurd (congrArg Prod.fst he).symm
            (core_suffix_ne p.metadata "/video.json" "/info.txt" (by decide))
        rcases List.mem_cons.1 hS2 with he | hS3
        · exact absurd (congrArg Prod.fst he).symm
            (core_suffix_ne p.metadata "/audio.json" "/info.txt" (by decide))
        rcases List.mem_cons.1 hS3 with he | hS4
        · exact absurd (congrArg Prod.fst he).symm
            (core_suffix_ne p.metadata "/input.json" "/info.txt" (by decide))
        rcases List.mem_cons.1 hS4 with he | hS5
        · exact absurd (congrArg Prod.fst he).symm
            (core_suffix_ne p.metadata "/interact.json" "/info.txt" (by decide))
        rcases List.mem_cons.1 hS5 with he | hS6
        · exact absurd (congrArg Prod.fst he).symm
            (core_suffix_ne p.metadata "/data.json" "/info.txt" (by decide))
        rcases List.mem_cons.1 hS6 with he | hS7
        · exact absurd (congrArg Prod.fst he).symm
            (core_suffix_ne p.metadata "/variants.json" "/info.txt" (by decide))
        exact absurd hS7 (List.not_mem_nil _)
    · obtain ⟨ic, _, hpe⟩ := List.mem_map.1 hR
      exact absurd (congrArg Prod.fst hpe)
        (rbf_path_ne_core_suffix p.metadata ic.1 "/info.txt" core_ne_info)
  · intro hempty hmem
    obtain ⟨e, he, hfst⟩ := List.mem_map.1 hmem
    rw [Package.filesOk] at he
    rcases List.mem_append.1 he with h4 | hR
    · rcases List.mem_append.1 h4 with h3 | hS
      · rcases List.mem_append.1 h3 with h2 | hI
        · rcases List.mem_append.1 h2 with hA | hC
          · obtain ⟨pj, _, hpe⟩ := List.mem_map.1 hA
            exact platforms_path_ne_core pj.1 "/info.txt" p.metadata
              ((congrArg Prod.fst hpe).trans hfst)
          · have hc := List.mem_singleton.1 hC
            exact core_suffix_ne p.metadata "/core.json" "/info.txt" (by decide)
              ((congrArg Prod.fst hc).symm.trans hfst)
        · rw [if_pos hempty] at hI
          exact absurd hI (List.not_mem_nil _)
      · rcases List.mem_cons.1 hS with hc | hS2
        · exact core_suffix_ne p.metadata "/video.json" "/info.txt" (by decide)
            ((congrArg Prod.fst hc).symm.trans hfst)
        rcases List.mem_cons.1 hS2 with hc | hS3
        · exact core_suffix_ne p.metadata "/audio.json" "/info.txt" (by decide)
            ((congrArg Prod.fst hc).symm.trans hfst)
        rcases List.mem_cons.1 hS3 with hc | hS4
        · exact core_suffix_ne p.metadata "/input.json" "/info.txt" (by decide)
            ((congrArg Prod.fst hc).symm.trans hfst)
        rcases List.mem_cons.1 hS4 with hc | hS5
        · exact core_suffix_ne p.metadata "/interact.json" "/info.txt" (by decide)
            ((congrArg Prod.fst hc).symm.trans hfst)
        rcases List.mem_cons.1 hS5 with hc | hS6
        · exact core_suffix_ne p.metadata "/data.json" "/info.txt" (by decide)
            ((congrArg Prod.fst hc).symm.trans hfst)
        rcases List.mem_cons.1 hS6 with hc | hS7
        · exact core_suffix_ne p.metadata "/variants.json" "/info.txt" (by decide)
            ((congrArg Prod.fst hc).symm.trans hfst)
        exact absurd hS7 (List.not_mem_nil _)
    · obtain ⟨ic, _, hpe⟩ := List.mem_map.1 hR
      exact rbf_path_ne_core_suffix p.metadata ic.1 "/info.txt" core_ne_info
        ((congrArg Prod.fst hpe).trans hfst)

/-- Witness for C7 at the demo package, whose long description is
non-empty. -/
theorem C7_info_txt_witness :
    (demoPackage.filesOk "2024-01-01").countP
      (fun e => e.1 == demoPackage.metadata.coreDirectory ++ "/info.txt") = 1 := by
  have hfiles : demoPackage.files "2024-01-01" =
      .ok (demoPackage.filesOk "2024-01-01") := by
    rw [files_eq, if_pos (by decide)]
  have h := (C7_info_txt demoPackage "2024-01-01" _ hfiles).1
  rw [h]
  decide

/-- C3 counterexample: the claim promises one `Platforms/{id}.json` entry
per platform, but the schema-valid duplicate-id model declares two platforms
while its assembled package contains a single Platforms entry. -/
theorem C3_counterexample :
    validateDoc dupPlatformDoc = true ∧
    dupPlatformMetadata.metadata_platform.length = 2 ∧
    (Package.files ⟨dupPlatformMetadata, []⟩ "2024-01-01").map
      (fun l => l.countP (fun e => e.1.data.take 10 == "Platforms/".data)) =
      .ok 1 := by
  refine ⟨by decide, rfl, ?_⟩
  rw [files_eq, if_pos (by decide)]
  simp only [Except.map]
  exact congrArg Except.ok (by decide)

/-- C3 (amended): with matching core names, `Package.files` produces exactly
the ordered sequence `Package.filesOk` — one `Platforms/{id}.json` per
distinct platform id, then `core.json`, `info.txt` only when the info text
is non-empty, then `video.json`, `audio.json`, `input.json`,
`interact.json`, `data.json`, `variants.json`, then one
`core_{k}.rbf_r` per supplied image in order carrying the bit-reversed
bytes — whenever the info text is ASCII-encodable (the encoding error
otherwise); `core.json`'s `cores` array has exactly one entry per image,
the `k`-th carrying id `k` and filename `core_k.rbf_r`. -/
theorem C3_package_sequence (p : Package) (now : String)
    (hnames : p.metadata.core_names = p.cores.map Prod.fst) :
    (p.files now =
      if allAscii p.metadata.infoTxt.data = true then .ok (p.filesOk now)
      else .error .asciiEncodeError) ∧
    ((jsonField (p.metadata.coreJson now) "core").bind
        (fun c => jsonField c "cores") =
      some (.arr (p.metadata.core_names.enum.map
        (fun ic => coreEntryJson ic.1 ic.2)))) ∧
    (p.metadata.core_names.enum.map (fun ic => coreEntryJson ic.1 ic.2)).length =
      p.cores.length ∧
    (∀ k, k < p.cores.length →
      (p.metadata.core_names.enum.map (fun ic => coreEntryJson ic.1 ic.2))[k]? =
        some (coreEntryJson k (p.metadata.core_names.getD k ""))) ∧
    ((p.cores.map Prod.snd).enum.map
        (fun ic => (p.metadata.coreDirectory ++ "/core_" ++ natStr ic.1 ++ ".rbf_r",
          encodeBytes ic.2))).length = p.cores.length ∧
    (∀ k, k < p.cores.length →
      ((p.cores.map Prod.snd).enum.map
        (fun ic => (p.metadata.coreDirectory ++ "/core_" ++ natStr ic.1 ++ ".rbf_r",
          encodeBytes ic.2)))[k]? =
        some (p.metadata.coreDirectory ++ "/core_" ++ natStr k ++ ".rbf_r",
          encodeBytes ((p.cores.map Prod.snd).getD k []))) := by
  have hnlen : p.metadata.core_names.length = p.cores.length := by
    rw [hnames, List.length_map]
  refine ⟨files_eq p now, rfl, ?_, ?_, ?_, ?_⟩
  · rw [List.length_map, List.enum_length, hnlen]
  · intro k hk
    have hk' : k < p.metadata.core_names.length := by omega
    rw [List.getElem?_map, List.getElem?_enum, List.getElem?_eq_getElem hk']
    have hgd : p.metadata.core_names.getD k "" = p.metadata.core_names[k] := by
      rw [List.getD_eq_getElem?_getD, List.getElem?_eq_getElem hk']
      rfl
    rw [hgd]
    rfl
  · rw [List.length_map, List.enum_length, List.length_map]
  · intro k hk
    have hk' : k < (p.cores.map Prod.snd).length := by
      rw [List.length_map]
      exact hk
    rw [List.getElem?_map, List.getElem?_enum, List.getElem?_eq_getElem hk']
    have hgd : (p.cores.map Prod.snd).getD k [] = (p.cores.map Prod.snd)[k] := by
      rw [List.getD_eq_getElem?_getD, List.getElem?_eq_getElem hk']
      rfl
    rw [hgd]
    rfl

/-- Witness for the amended C3 at the demo package. -/
theorem C3_package_sequence_witness :
    demoPackage.metadata.core_names = demoPackage.cores.map Prod.fst ∧
    demoPackage.files "2024-01-01" =
      (if allAscii demoPackage.metadata.infoTxt.data = true
       then .ok (demoPackage.filesOk "2024-01-01")
       else .error .asciiEncodeError) :=
  ⟨rfl, (C3_package_sequence demoPackage "2024-01-01" rfl).1⟩

/-! ### The version pattern -/

theorem mem_afterDigits1 (l : List Char) : ∀ r : List Char,
    r ∈ afterDigits1 l ↔
      ∃ d, d ≠ [] ∧ d.all isDigitCh = true ∧ l = d ++ r := by
  induction l with
  | nil =>
    intro r
    constructor
    · intro hr
      exact absurd hr (List.not_mem_nil r)
    · rintro ⟨d, hd, _, he⟩
      rcases List.append_eq_nil.1 he.symm with ⟨rfl, _⟩
      exact absurd rfl hd
  | cons c cs ih =>
    intro r
    rw [afterDigits1]
    by_cases hc : isDigitCh c = true
    · rw [if_pos hc]
      constructor
      · intro hr
        rcases List.mem_cons.1 hr with rfl | hmem
        · exact ⟨[c], by simp, by simp [hc], rfl⟩
        · obtain ⟨d, hd, hall, he⟩ := (ih r).1 hmem
          refine ⟨c :: d, by simp, ?_, by rw [List.cons_append, he]⟩
          simp [List.all_cons, hc, hall]
      · rintro ⟨d, hd, hall, he⟩
        cases d with
        | nil => exact absurd rfl hd
        | cons x d2 =>
          rw [List.cons_append] at he
          injection he with h1 h2
          cases d2 with
          | nil =>
            simp only [List.nil_append] at h2
            exact List.mem_cons.2 (Or.inl h2.symm)
          | cons y d3 =>
            refine List.mem_cons.2 (Or.inr ((ih r).2 ⟨y :: d3, by simp, ?_, h2⟩))
            simp only [List.all_cons, Bool.and_eq_true] at hall
            simp [List.all_cons, hall.2]
    · rw [if_neg hc]
      constructor
      · intro hr
        exact absurd hr (List.not_mem_nil r)
      · rintro ⟨d, hd, hall, he⟩
        cases d with
        | nil => exact absurd rfl hd
        | cons x d2 =>
          rw [List.cons_append] at he
          injection he with h1 h2
          simp only [List.all_cons, Bool.and_eq_true] at hall
          exact absurd (h1 ▸ hall.1) hc

/-- The regular-expression matcher agrees with the declarative reading:
some non-empty digit group, any non-newline character, a second group,
another non-newline character, a third group, then anything. -/
theorem matchDDD_iff (l : List Char) :
    matchDDD l = true ↔
      ∃ d1 c1 d2 c2 d3 rest,
        l = d1 ++ c1 :: (d2 ++ c2 :: (d3 ++ rest)) ∧
        d1 ≠ [] ∧ d1.all isDigitCh = true ∧ c1 ≠ '\n' ∧
        d2 ≠ [] ∧ d2.all isDigitCh = true ∧ c2 ≠ '\n' ∧
        d3 ≠ [] ∧ d3.all isDigitCh = true := by
  rw [matchDDD, List.any_eq_true]
  constructor
  · rintro ⟨r1, hr1mem, hr1⟩
    cases r1 with
    | nil => exact absurd hr1 (by simp)
    | cons c1 r1x =>
      simp only [Bool.and_eq_true, List.any_eq_true] at hr1
      obtain ⟨hc1, r2, hr2mem, hr2⟩ := hr1
      cases r2 with
      | nil => exact absurd hr2 (by simp)
      | cons c2 r2x =>
        simp only [Bool.and_eq_true] at hr2
        obtain ⟨hc2, hne⟩ := hr2
        obtain ⟨d1, hd1, ha1, he1⟩ := (mem_afterDigits1 l _).1 hr1mem
        obtain ⟨d2, hd2, ha2, he2⟩ := (mem_afterDigits1 r1x _).1 hr2mem
        cases h3 : afterDigits1 r2x with
        | nil => rw [h3] at hne; simp at hne
        | cons r3 rs =>
          obtain ⟨d3, hd3, ha3, he3⟩ := (mem_afterDigits1 r2x r3).1
            (h3 ▸ List.mem_cons_self r3 rs)
          refine ⟨d1, c1, d2, c2, d3, r3, ?_, hd1, ha1, ?_, hd2, ha2, ?_, hd3, ha3⟩
          · rw [he1, he2, he3]
          · simpa using hc1
          · simpa using hc2
  · rintro ⟨d1, c1, d2, c2, d3, rest, he, hd1, ha1, hc1, hd2, ha2, hc2, hd3, ha3⟩
    refine ⟨c1 :: (d2 ++ c2 :: (d3 ++ rest)),
      (mem_afterDigits1 l _).2 ⟨d1, hd1, ha1, he⟩, ?_⟩
    simp only [Bool.and_eq_true, List.any_eq_true]
    refine ⟨by simpa using hc1, c2 :: (d3 ++ rest),
      (mem_afterDigits1 _ _).2 ⟨d2, hd2, ha2, rfl⟩, ?_⟩
    simp only [Bool.and_eq_true]
    refine ⟨by simpa using hc2, ?_⟩
    cases d3 with
    | nil => exact absurd rfl hd3
    | cons x d4 =>
      simp only [List.all_cons, Bool.and_eq_true] at ha3
      rw [List.cons_append, afterDigits1, if_pos ha3.1]
      simp

/-- C4 counterexample: the string `"1a2b3"` does not begin with
`digits.digits.digits` (literal dots), yet a document carrying it as
`metadata.core.version` passes validation, because the unescaped dots in
the pattern match any character. -/
theorem C4_counterexample :
    validateDoc oddVersionDoc = true ∧
    startsWithDottedTriple "1a2b3" = false ∧
    versionFieldOk (.str "1a2b3") = true :=
  ⟨by decide, by decide, by decide⟩

/-- C4 (amended): the schema accepts `metadata.core.version` exactly on
strings of length at most 31 beginning with a non-empty decimal digit
group, one arbitrary non-newline character, a second digit group, another
arbitrary non-newline character, and a third digit group — the unescaped
dots of `^(\d+).(\d+).(\d+)` match any character, so every string beginning
with the literal dotted triple is accepted but not only those. -/
theorem C4_version_pattern (s : String) :
    (versionFieldOk (.str s) = true ↔
      (∃ d1 c1 d2 c2 d3 rest,
        s.data = d1 ++ c1 :: (d2 ++ c2 :: (d3 ++ rest)) ∧
        d1 ≠ [] ∧ d1.all isDigitCh = true ∧ c1 ≠ '\n' ∧
        d2 ≠ [] ∧ d2.all isDigitCh = true ∧ c2 ≠ '\n' ∧
        d3 ≠ [] ∧ d3.all isDigitCh = true) ∧ s.length ≤ 31) ∧
    (startsWithDottedTriple s = true → versionPatternOk s = true) := by
  constructor
  · show (versionPatternOk s && decide (s.length ≤ 31)) = true ↔ _
    rw [Bool.and_eq_true, versionPatternOk, matchDDD_iff]
    simp
  · intro hs
    rw [versionPatternOk, matchDDD_iff]
    simp only [startsWithDottedTriple, List.span_eq_take_drop] at hs
    rw [Bool.and_eq_true] at hs
    obtain ⟨hne1, h2⟩ := hs
    have h1 : s.data.takeWhile isDigitCh ≠ [] := by simpa using hne1
    have e0 : s.data.takeWhile isDigitCh ++ s.data.dropWhile isDigitCh = s.data :=
      List.takeWhile_append_dropWhile isDigitCh s.data
    cases hdrop : s.data.dropWhile isDigitCh with
    | nil => rw [hdrop] at h2; exact absurd h2 (by simp)
    | cons a1 r1 =>
      rw [hdrop] at h2
      rw [Bool.and_eq_true, Bool.and_eq_true] at h2
      obtain ⟨ha1, hne2, h3⟩ := h2
      have hX : r1.takeWhile isDigitCh ≠ [] := by simpa using hne2
      have e1 : r1.takeWhile isDigitCh ++ r1.dropWhile isDigitCh = r1 :=
        List.takeWhile_append_dropWhile isDigitCh r1
      cases hdrop2 : r1.dropWhile isDigitCh with
      | nil => rw [hdrop2] at h3; exact absurd h3 (by simp)
      | cons a2 r2 =>
        rw [hdrop2] at h3
        rw [Bool.and_eq_true] at h3
        obtain ⟨ha2, hne3⟩ := h3
        have hz : r2.takeWhile isDigitCh ≠ [] := by simpa using hne3
        have e2 : r2.takeWhile isDigitCh ++ r2.dropWhile isDigitCh = r2 :=
          List.takeWhile_append_dropWhile isDigitCh r2
        refine ⟨s.data.takeWhile isDigitCh, a1, r1.takeWhile isDigitCh, a2,
          r2.takeWhile isDigitCh, r2.dropWhile isDigitCh, ?_, h1,
          List.all_takeWhile, ?_, hX, List.all_takeWhile, ?_, hz,
          List.all_takeWhile⟩
        · rw [e2, ← hdrop2, e1, ← hdrop, e0]
        · rw [(by simpa using ha1 : a1 = '.')]
          decide
        · rw [(by simpa using ha2 : a2 = '.')]
          decide

/-- Witness for the amended C4: the literal dotted triple is accepted. -/
theorem C4_version_pattern_witness :
    startsWithDottedTriple "1.0.0" = true ∧ versionPatternOk "1.0.0" = true :=
  ⟨by decide, (C4_version_pattern "1.0.0").2 (by decide)⟩

/-! ### Unknown keys -/

theorem propCheck_some (kvs : List (String × TomlVal)) (k : String)
    (chk : TomlVal → Bool) (v : TomlVal) (h : tomlLookup kvs k = some v)
    (hp : propCheck kvs k chk = true) : chk v = true := by
  rw [propCheck, h] at hp
  exact hp

/-- C2 counterexample: a schema-valid document whose single video mode
element carries the undeclared key `frobnicate` — the `video.mode` item
sub-schema lacks `additionalProperties: False`, so the unknown field is
silently ignored rather than rejected. -/
theorem C2_counterexample :
    validateDoc modeExtraKeyDoc = true ∧
    (modeExtraKeyDoc.get "video").bind (fun v => v.get "mode") =
      some (.arr [.table modeExtraElem]) ∧
    hasKey modeExtraElem "frobnicate" = true ∧
    modeKeys.contains "frobnicate" = false :=
  ⟨by decide, rfl, by decide, by decide⟩

/-- C2 (amended): a document accepted by the validator has only declared
keys at every object level the schema closes — top level, `metadata`, each
`metadata.platform` element, `metadata.core`, `core`, `audio`, `video`,
`input`, `interact` and `data` — equivalently, an unknown key at any of
those levels is rejected; `video.mode` elements are the exception, their
sub-schema being open. -/
theorem C2_unknown_keys (d : TomlVal) (hd : validateDoc d = true) :
    ∀ kvs, d = .table kvs →
      keysAmong kvs topLevelKeys = true ∧
      (∀ mkvs, tomlLookup kvs "metadata" = some (.table mkvs) →
        keysAmong mkvs metadataKeys = true ∧
        (∀ ps, tomlLookup mkvs "platform" = some (.arr ps) →
          ∀ pv ∈ ps, ∀ pkvs, pv = .table pkvs →
            keysAmong pkvs platformKeys = true) ∧
        (∀ ckvs, tomlLookup mkvs "core" = some (.table ckvs) →
          keysAmong ckvs metadataCoreKeys = true)) ∧
      (∀ ckvs, tomlLookup kvs "core" = some (.table ckvs) →
        keysAmong ckvs coreTableKeys = true) ∧
      (∀ akvs, tomlLookup kvs "audio" = some (.table akvs) → akvs = []) ∧
      (∀ vkvs, tomlLookup kvs "video" = some (.table vkvs) →
        keysAmong vkvs videoKeys = true) ∧
      (∀ ikvs, tomlLookup kvs "input" = some (.table ikvs) → ikvs = []) ∧
      (∀ ikvs, tomlLookup kvs "interact" = some (.table ikvs) → ikvs = []) ∧
      (∀ dkvs, tomlLookup kvs "data" = some (.table dkvs) → dkvs = []) := by
  intro kvs hkvs
  subst hkvs
  rw [validateDoc] at hd
  simp only [Bool.and_eq_true] at hd
  obtain ⟨⟨⟨⟨⟨⟨⟨⟨⟨_, _⟩, hkeys⟩, hmeta⟩, hcore⟩, haudio⟩, hvideo⟩, hinput⟩,
    hinteract⟩, hdata⟩ := hd
  refine ⟨hkeys, ?_, ?_, ?_, ?_, ?_, ?_, ?_⟩
  · intro mkvs hm
    have hv := propCheck_some _ _ _ _ hm hmeta
    rw [validMetadataTable] at hv
    simp only [Bool.and_eq_true] at hv
    obtain ⟨⟨⟨⟨_, _⟩, hmkeys⟩, hplat⟩, hmcore⟩ := hv
    refine ⟨hmkeys, ?_, ?_⟩
    · intro ps hps pv hpv pkvs hpkvs
      have hp := propCheck_some _ _ _ _ hps hplat
      simp only [Bool.and_eq_true] at hp
      have hitem := List.all_eq_true.1 hp.2 pv hpv
      subst hpkvs
      rw [validPlatformItem] at hitem
      simp only [Bool.and_eq_true] at hitem
      exact hitem.1.1.1.1.1.2
    · intro ckvs hc
      have hp := propCheck_some _ _ _ _ hc hmcore
      rw [validMetadataCore] at hp
      simp only [Bool.and_eq_true] at hp
      exact hp.1.1.1.1.1.1.1.2
  · intro ckvs hc
    have hp := propCheck_some _ _ _ _ hc hcore
    rw [validCoreTable] at hp
    simp only [Bool.and_eq_true] at hp
    exact hp.1
  · intro akvs ha
    have hp := propCheck_some _ _ _ _ ha haudio
    rw [validEmptyTable] at hp
    exact List.isEmpty_iff.1 hp
  · intro vkvs hv
    have hp := propCheck_some _ _ _ _ hv hvideo
    rw [validVideoTable] at hp
    simp only [Bool.and_eq_true] at hp
    exact hp.1.2
  · intro ikvs hi
    have hp := propCheck_some _ _ _ _ hi hinput
    rw [validEmptyTable] at hp
    exact List.isEmpty_iff.1 hp
  · intro ikvs hi
    have hp := propCheck_some _ _ _ _ hi hinteract
    rw [validEmptyTable] at hp
    exact List.isEmpty_iff.1 hp
  · intro dkvs hdk
    have hp := propCheck_some _ _ _ _ hdk hdata
    rw [validEmptyTable] at hp
    exact List.isEmpty_iff.1 hp

/-- Witness for the amended C2 at the concrete extra-key document. -/
theorem C2_unknown_keys_witness :
    keysAmong modeExtraKeyKvs topLevelKeys = true :=
  (C2_unknown_keys modeExtraKeyDoc (by decide) modeExtraKeyKvs rfl).1

end AmaranthAnalogue

